import Mathlib

/-!
Shallow embedding of the ytviewer core (internal/youtube/client.go) and the
watched-tracker contract, for checking the specification's claims.

Modelling conventions:
- Wall-clock time is a natural number; the Go zero time.Time is modelled by
  an Option (none = zero value).  time.Since t = now - t (truncated).
- Go maps (channelCache, videoCache, the result map of name resolution) are
  modelled as association lists with insert-or-update semantics (aupdate);
  iteration order of the model is insertion order, a deterministic stand-in
  for Go's unspecified map iteration order.
- The remote YouTube API, the RFC3339 parser and uuid.Parse are external
  collaborators; they are modelled by an Env record of response functions
  (none = the call or parse returned an error).
- Every operation returns its result, the updated client, and the list of
  external events it performed (remote calls, config persistence), in order.
-/

namespace YTV

/-- A YouTube video (struct Video in client.go). -/
structure Video where
  id : String
  title : String
  channelName : String
  publishedAt : Nat
  thumbnail : String
deriving DecidableEq, Repr

/-- A channel subscription (struct Subscription in client.go); only the
fields relevant to the claims are kept. -/
structure Subscription where
  id : String
  title : String
deriving DecidableEq, Repr

/-- The client state (struct Client in client.go).  The service handle, API
key and mpv options are runtime handles with no bearing on any claim and are
omitted. -/
structure Client where
  subscribedChannels : List String
  maxVideosPerChannel : Nat
  cachedSubscriptions : List Subscription
  channelCache : List (String × String)
  videoCache : List (String × List Video)
  lastFetchTime : Option Nat
  cacheDuration : Nat
deriving DecidableEq, Repr

/-- One item of a Channels.List(contentDetails) response. -/
structure ChanMeta where
  id : String
  uploads : String
deriving DecidableEq, Repr

/-- One item of a PlaylistItems.List(snippet) response. -/
structure PlaylistItem where
  videoId : String
  title : String
  publishedAt : String
  thumbnail : String
deriving DecidableEq, Repr

/-- Externally visible events: remote API calls and config persistence. -/
inductive Event where
  | contentDetailsCall (ids : List String)
  | playlistItemsCall (pid : String)
  | snippetCall (ids : List String)
  | persist (subs : List String)
deriving DecidableEq, Repr

/-- The external world: current time, remote API responses (none = error),
the RFC3339 parser, uuid.Parse viewed as a predicate, and whether a config
write succeeds. -/
structure Env where
  now : Nat
  contentDetails : List String → Option (List ChanMeta)
  playlistItems : String → Nat → Option (List PlaylistItem)
  snippet : List String → Option (List (String × String))
  parseTime : String → Option Nat
  uuidOk : String → Bool
  persistOk : Bool

/-- Association-list lookup (Go map read). -/
def alookup {α : Type} : List (String × α) → String → Option α
  | [], _ => none
  | (k, v) :: rest, key => if k = key then some v else alookup rest key

/-- Association-list insert-or-update (Go map write): updates the first
binding in place, or appends a new binding at the end. -/
def aupdate {α : Type} : List (String × α) → String → α → List (String × α)
  | [], k, v => [(k, v)]
  | (k', v') :: rest, k, v =>
    if k' = k then (k, v) :: rest else (k', v') :: aupdate rest k v

/-- Write a batch of key/value pairs into an association list, left to
right (the response-processing loops of client.go). -/
def writeAll {α : Type} (m : List (String × α)) (items : List (String × α)) :
    List (String × α) :=
  items.foldl (fun m p => aupdate m p.1 p.2) m

/-- The keys of an association list. -/
def keys {α : Type} (m : List (String × α)) : List String :=
  m.map Prod.fst

/-- Concatenation of all per-channel entries of the video cache, in entry
order (the range loop of the cache-hit path of GetLatestVideos). -/
def concatValues : List (String × List Video) → List Video
  | [] => []
  | (_, vs) :: rest => vs ++ concatValues rest

/-- Remove the first occurrence of an element (the slice-splice removal in
RemoveSubscription). -/
def removeFirst : List String → String → List String
  | [], _ => []
  | x :: xs, y => if x = y then xs else x :: removeFirst xs y

/-- Deduplication keeping first occurrences (the map-based dedup of missing
channel IDs in fetchVideosForChannels), with an explicit seen accumulator. -/
def dedupAux (seen : List String) : List String → List String
  | [] => []
  | x :: xs => if x ∈ seen then dedupAux seen xs else x :: dedupAux (x :: seen) xs

/-- Deduplication keeping first occurrences. -/
def dedupFirst (l : List String) : List String :=
  dedupAux [] l

/-- Fuel-driven chunking; the fuel is an upper bound on the number of
chunks, instantiated with the list length so that the definition is
structurally recursive and kernel-evaluable. -/
def chunksAux : Nat → List String → List (List String)
  | _, [] => []
  | 0, _ :: _ => []
  | fuel + 1, x :: xs => ((x :: xs).take 50) :: chunksAux fuel ((x :: xs).drop 50)

/-- Partition a list into consecutive chunks of at most 50 elements (the
i += 50 batching loops of client.go). -/
def chunks50 (l : List String) : List (List String) :=
  chunksAux l.length l

/-- strings.HasPrefix(s, "UC"), written on the character list so that it
evaluates inside the kernel. -/
def startsWithUC (s : String) : Bool :=
  match s.data with
  | 'U' :: 'C' :: _ => true
  | _ => false

/-- The heuristic of fetchVideosForChannels for a channel-name field that
still holds a raw channel ID: uuid.Parse succeeds or the string starts with
UC. -/
def looksLikeID (env : Env) (s : String) : Bool :=
  env.uuidOk s || startsWithUC s

/-- Descending order on publication time: the comparison of the
sort.Slice calls of GetLatestVideos. -/
def vle (a b : Video) : Prop :=
  b.publishedAt ≤ a.publishedAt

instance : DecidableRel vle := fun a b =>
  inferInstanceAs (Decidable (b.publishedAt ≤ a.publishedAt))

instance : IsTotal Video vle :=
  ⟨fun a b => Nat.le_total b.publishedAt a.publishedAt⟩

instance : IsTrans Video vle :=
  ⟨fun _ _ _ h h' => Nat.le_trans h' h⟩

/-- Sort newest-first (the sort.Slice calls of GetLatestVideos). -/
def sortVideos (l : List Video) : List Video :=
  List.insertionSort vle l

/-- Build the videos of one channel from a playlist response (the inner
item loop of fetchVideosForChannels): the channel name is the cached name
or the raw channel ID as a placeholder, and an unparsable publishedAt
string falls back to the current time. -/
def mkVideos (env : Env) (cc : List (String × String)) (channelID : String)
    (items : List PlaylistItem) : List Video :=
  items.map fun it =>
    { id := it.videoId
      title := it.title
      channelName := (alookup cc channelID).getD channelID
      publishedAt := (env.parseTime it.publishedAt).getD env.now
      thumbnail := it.thumbnail }

/-- The per-channel loop of fetchVideosForChannels: for each channel of the
metadata response, fetch its uploads playlist; on failure skip the channel,
on success record its videos in the video cache and in the running list. -/
def processChannels (env : Env) : Client → List ChanMeta →
    List Video × Client × List Event
  | c, [] => ([], c, [])
  | c, m :: rest =>
    match env.playlistItems m.uploads c.maxVideosPerChannel with
    | none =>
      let out := processChannels env c rest
      (out.1, out.2.1, Event.playlistItemsCall m.uploads :: out.2.2)
    | some items =>
      let channelVideos := mkVideos env c.channelCache m.id items
      let c1 := { c with videoCache := aupdate c.videoCache m.id channelVideos }
      let out := processChannels env c1 rest
      (channelVideos ++ out.1, out.2.1, Event.playlistItemsCall m.uploads :: out.2.2)

/-- The batch loop of GetChannelNamesForIDs: resolve missing channel IDs in
chunks of 50; a failing chunk aborts the call, but names resolved by the
chunks already processed stay written in the shared channel-name cache. -/
def resolveBatches (env : Env) : Client → List (String × String) →
    List (List String) → Option (List (String × String)) × Client × List Event
  | c, result, [] => (some result, c, [])
  | c, result, b :: bs =>
    match env.snippet b with
    | none => (none, c, [Event.snippetCall b])
    | some items =>
      let c' := { c with channelCache := writeAll c.channelCache items }
      let out := resolveBatches env c' (writeAll result items) bs
      (out.1, out.2.1, Event.snippetCall b :: out.2.2)

/-- The channel IDs of a resolve request that miss the channel-name cache,
in request order (GetChannelNamesForIDs). -/
def missingOf (c : Client) (channelIDs : List String) : List String :=
  channelIDs.filter fun id => (alookup c.channelCache id).isNone

/-- GetChannelNamesForIDs of client.go.  On a chunk failure the Go code
returns the partially filled result map together with the error; every
caller discards the map in that case, so the model returns none (the cache
writes of the successful chunks are retained in the client). -/
def GetChannelNamesForIDs (c : Client) (env : Env) (channelIDs : List String) :
    Option (List (String × String)) × Client × List Event :=
  let hits := channelIDs.foldl
    (fun r id =>
      match alookup c.channelCache id with
      | some n => aupdate r id n
      | none => r) []
  let missing := missingOf c channelIDs
  if missing.isEmpty then (some hits, c, [])
  else resolveBatches env c hits (chunks50 missing)

/-- The channel-name placeholders of a batch result that still look like
raw channel IDs, deduplicated (steps 3-4 of fetchVideosForChannels). -/
def collectMissing (env : Env) (vs : List Video) : List String :=
  dedupFirst (vs.filterMap fun v =>
    if looksLikeID env v.channelName then some v.channelName else none)

/-- Patch one video of the returned batch with a resolved channel name, if
its name field still looks like a raw channel ID and that ID was resolved
(the indices loop of fetchVideosForChannels). -/
def patchName (env : Env) (names : List (String × String)) (v : Video) : Video :=
  if looksLikeID env v.channelName then
    match alookup names v.channelName with
    | some n => { v with channelName := n }
    | none => v
  else v

/-- Patch the cached entry of one channel with its resolved name, when that
entry exists (the videoCache update of fetchVideosForChannels). -/
def patchCacheKey (vc : List (String × List Video)) (key n : String) :
    List (String × List Video) :=
  match alookup vc key with
  | none => vc
  | some vs => aupdate vc key (vs.map fun v => { v with channelName := n })

/-- Patch the video cache for every collected channel ID that was resolved. -/
def patchCache (names : List (String × String)) (missing : List String)
    (vc : List (String × List Video)) : List (String × List Video) :=
  missing.foldl
    (fun vc key =>
      match alookup names key with
      | some n => patchCacheKey vc key n
      | none => vc) vc

/-- fetchVideosForChannels of client.go: one metadata call for the whole
batch (an error aborts the batch), per-channel playlist fetches (an error
skips just that channel), then a follow-up resolution of placeholder names
whose failure is logged and swallowed. -/
def fetchVideosForChannels (c : Client) (env : Env) (channelIDs : List String) :
    Option (List Video) × Client × List Event :=
  match env.contentDetails channelIDs with
  | none => (none, c, [Event.contentDetailsCall channelIDs])
  | some metas =>
    let pcs := processChannels env c metas
    let allVideos := pcs.1
    let c1 := pcs.2.1
    let ev1 := pcs.2.2
    let missing := collectMissing env allVideos
    if missing.isEmpty then
      (some allVideos, c1, Event.contentDetailsCall channelIDs :: ev1)
    else
      match GetChannelNamesForIDs c1 env missing with
      | (none, c2, ev2) =>
        (some allVideos, c2, Event.contentDetailsCall channelIDs :: (ev1 ++ ev2))
      | (some names, c2, ev2) =>
        (some (allVideos.map (patchName env names)),
         { c2 with videoCache := patchCache names missing c2.videoCache },
         Event.contentDetailsCall channelIDs :: (ev1 ++ ev2))

/-- The batch loop of the rebuild path of GetLatestVideos: fetch every
chunk sequentially, stopping at the first failing chunk. -/
def runBatches (env : Env) : Client → List (List String) →
    Option (List Video) × Client × List Event
  | c, [] => (some [], c, [])
  | c, b :: bs =>
    match fetchVideosForChannels c env b with
    | (none, c', ev) => (none, c', ev)
    | (some vs, c', ev) =>
      match runBatches env c' bs with
      | (none, c'', ev') => (none, c'', ev ++ ev')
      | (some rest, c'', ev') => (some (vs ++ rest), c'', ev ++ ev')

/-- The cache-validity test of GetLatestVideos: a non-zero last fetch time
less than cacheDuration ago. -/
def cacheFresh (c : Client) (env : Env) : Bool :=
  match c.lastFetchTime with
  | none => false
  | some t => env.now - t < c.cacheDuration

/-- GetLatestVideos of client.go.  On a valid cache, return the sorted
union of the per-channel entries with no remote access; otherwise rebuild
in chunks of 50 channels, and promote lastFetchTime only after every chunk
succeeded. -/
def GetLatestVideos (c : Client) (env : Env) :
    Option (List Video) × Client × List Event :=
  if cacheFresh c env then
    (some (sortVideos (concatValues c.videoCache)), c, [])
  else
    match runBatches env c (chunks50 c.subscribedChannels) with
    | (none, c', ev) => (none, c', ev)
    | (some vs, c', ev) =>
      (some (sortVideos vs), { c' with lastFetchTime := some env.now }, ev)

/-- The error outcomes of the subscription mutations of client.go. -/
inductive SubError where
  | apiError
  | notFound
  | duplicate
  | saveError
deriving DecidableEq, Repr

/-- AddSubscription of client.go: validate the channel against the remote
API, reject a duplicate before mutating, then append, invalidate the
subscription-info cache and persist. -/
def AddSubscription (c : Client) (env : Env) (channelID : String) :
    Option SubError × Client × List Event :=
  match env.snippet [channelID] with
  | none => (some SubError.apiError, c, [Event.snippetCall [channelID]])
  | some items =>
    if items.isEmpty then
      (some SubError.notFound, c, [Event.snippetCall [channelID]])
    else if channelID ∈ c.subscribedChannels then
      (some SubError.duplicate, c, [Event.snippetCall [channelID]])
    else
      let c' := { c with
        subscribedChannels := c.subscribedChannels ++ [channelID]
        cachedSubscriptions := [] }
      (if env.persistOk then none else some SubError.saveError, c',
       [Event.snippetCall [channelID], Event.persist c'.subscribedChannels])

/-- RemoveSubscription of client.go: remove the first occurrence,
invalidate the subscription-info cache and persist; the video cache and
the last fetch time are untouched. -/
def RemoveSubscription (c : Client) (env : Env) (channelID : String) :
    Option SubError × Client × List Event :=
  if channelID ∈ c.subscribedChannels then
    let c' := { c with
      subscribedChannels := removeFirst c.subscribedChannels channelID
      cachedSubscriptions := [] }
    (if env.persistOk then none else some SubError.saveError, c',
     [Event.persist c'.subscribedChannels])
  else
    (some SubError.notFound, c, [])

/-- ClearVideoCache of client.go. -/
def ClearVideoCache (c : Client) : Client :=
  { c with videoCache := [], lastFetchTime := none }

/-- Modelled from the spec: the WatchedTracker store.  The implementation
of the watched-video tracker (MarkVideoAsWatched, GetWatchedVideos on the
client) is called from internal/ui/ui.go but its source file is not part
of the provided sources; per section 4.6 of the spec it is a persisted,
monotonically growing set of watched video IDs. -/
structure WatchedStore where
  watched : List String
deriving DecidableEq, Repr

/-- Modelled from the spec: markWatched adds the video ID to the persisted
watched set (no un-watching operation exists). -/
def markWatched (s : WatchedStore) (videoID : String) : WatchedStore :=
  { s with watched := videoID :: s.watched }

/-- Modelled from the spec: isWatched queries membership of the video ID in
the persisted watched set. -/
def isWatched (s : WatchedStore) (videoID : String) : Bool :=
  s.watched.contains videoID

/-- The channel-metadata (Channels.List contentDetails) calls of an event
list, in order, each with the channel IDs it was issued for. -/
def metaCalls (ev : List Event) : List (List String) :=
  ev.filterMap fun e =>
    match e with
    | Event.contentDetailsCall ids => some ids
    | _ => none

/-- A concrete two-channel client used to evaluate the theorems below on
explicit inputs. -/
def wClient : Client :=
  { subscribedChannels := ["UCA", "UCX"]
    maxVideosPerChannel := 5
    cachedSubscriptions := []
    channelCache := [("UCA", "Alice"), ("UCX", "Xavier")]
    videoCache := []
    lastFetchTime := none
    cacheDuration := 10 }

/-- A concrete environment in which both channels of wClient resolve and
each returns one video. -/
def wEnv : Env :=
  { now := 100
    contentDetails := fun ids =>
      if ids = ["UCA", "UCX"] then some [ChanMeta.mk "UCA" "PA", ChanMeta.mk "UCX" "PX"]
      else if ids = ["UCA"] then some [ChanMeta.mk "UCA" "PA"]
      else none
    playlistItems := fun pid _ =>
      if pid = "PA" then some [PlaylistItem.mk "a1" "video a1" "ta1" "th"]
      else if pid = "PX" then some [PlaylistItem.mk "x1" "video x1" "tx1" "th"]
      else none
    snippet := fun ids =>
      if ids = ["UCA"] then some [("UCA", "Alice")] else none
    parseTime := fun s =>
      if s = "ta1" then some 50 else if s = "tx1" then some 40 else none
    uuidOk := fun _ => false
    persistOk := true }

/-- A concrete environment in which every remote call fails. -/
def wEnvErr : Env :=
  { now := 100
    contentDetails := fun _ => none
    playlistItems := fun _ _ => none
    snippet := fun _ => none
    parseTime := fun _ => none
    uuidOk := fun _ => false
    persistOk := true }

/-- The client after a first successful rebuild of wClient under wEnv. -/
def tr1Client : Client :=
  (GetLatestVideos wClient wEnv).2.1

/-- tr1Client after removing the channel UCX from the subscriptions; the
per-channel video cache keeps its UCX entry. -/
def tr2Client : Client :=
  (RemoveSubscription tr1Client wEnv "UCX").2.1

/-- The environment of a second rebuild, past the cache TTL, in which the
single remaining channel returns one new video. -/
def tr2Env : Env :=
  { wEnv with
    now := 200
    contentDetails := fun ids => if ids = ["UCA"] then some [ChanMeta.mk "UCA" "PA"] else none
    playlistItems := fun pid _ =>
      if pid = "PA" then some [PlaylistItem.mk "a2" "video a2" "ta2" "th"] else none
    parseTime := fun s => if s = "ta2" then some 150 else none }

/-- The client after the second rebuild (subscriptions shrunk to UCA). -/
def tr3Client : Client :=
  (GetLatestVideos tr2Client tr2Env).2.1

/-- The environment of a call made 5 time units after the second rebuild,
well inside the 10-unit TTL. -/
def tr3Env : Env :=
  { tr2Env with now := 205 }

/-- An environment in which only channel UCA's playlist succeeds; UCX's
playlist fetch fails. -/
def wEnvHalf : Env :=
  { wEnv with
    playlistItems := fun pid n =>
      if pid = "PA" then wEnv.playlistItems pid n else none }

/-- An environment identical to wEnv except that every publishedAt string
fails to parse. -/
def wEnvBadTime : Env :=
  { wEnv with parseTime := fun _ => none }

/-- An initially empty watched-video store. -/
def wStore : WatchedStore :=
  { watched := [] }

/-- Fifty-one distinct channel IDs, enough to force two batches of 50. -/
def fiftyOneIds : List String :=
  (List.range 51).map fun n => String.append "UC" (Nat.repr n)

/-- A client with an empty channel-name cache, used to resolve the 51 IDs
in two batches. -/
def c5Client : Client :=
  { subscribedChannels := []
    maxVideosPerChannel := 5
    cachedSubscriptions := []
    channelCache := []
    videoCache := []
    lastFetchTime := none
    cacheDuration := 10 }

/-- An environment whose snippet endpoint answers full batches of 50 IDs
and fails on the final short batch. -/
def c5Env : Env :=
  { now := 100
    contentDetails := fun _ => none
    playlistItems := fun _ _ => none
    snippet := fun ids =>
      if ids.length = 50 then some (ids.map fun i => (i, String.append i " name"))
      else none
    parseTime := fun _ => none
    uuidOk := fun _ => false
    persistOk := true }

/-- A client subscribed to 51 channels, so that a rebuild needs two
batches. -/
def c9Client : Client :=
  { subscribedChannels := fiftyOneIds
    maxVideosPerChannel := 5
    cachedSubscriptions := []
    channelCache := [("UC0", "Zero")]
    videoCache := []
    lastFetchTime := none
    cacheDuration := 10 }

/-- An environment in which the first batch of 50 succeeds (with one
channel in the response) and the final short batch's metadata call fails. -/
def c9Env : Env :=
  { now := 100
    contentDetails := fun ids =>
      if ids.length = 50 then some [ChanMeta.mk "UC0" "P0"] else none
    playlistItems := fun pid _ =>
      if pid = "P0" then some [PlaylistItem.mk "z1" "video z1" "tz" "th"] else none
    snippet := fun _ => none
    parseTime := fun s => if s = "tz" then some 60 else none
    uuidOk := fun _ => false
    persistOk := true }

/-- The effect of the cache-patching fold of fetchVideosForChannels on one
entry: an entry whose key was collected and resolved has all its videos
renamed, any other entry is untouched (used to state patchCache as a map). -/
def entryPatch (names : List (String × String)) (missing : List String)
    (e : String × List Video) : String × List Video :=
  if e.1 ∈ missing then
    match alookup names e.1 with
    | some n => (e.1, e.2.map fun v => { v with channelName := n })
    | none => e
  else e

/-! ### Association-list lemmas -/

theorem alookup_aupdate_self {α : Type} (m : List (String × α)) (k : String) (v : α) :
    alookup (aupdate m k v) k = some v := by
  induction m with
  | nil => simp [alookup, aupdate]
  | cons p rest ih =>
    by_cases h : p.1 = k
    · simp [alookup, aupdate, h]
    · simp [alookup, aupdate, h, ih]

theorem alookup_aupdate_ne {α : Type} (m : List (String × α)) (k k' : String) (v : α)
    (h : k' ≠ k) : alookup (aupdate m k v) k' = alookup m k' := by
  induction m with
  | nil =>
    simp only [aupdate, alookup]
    rw [if_neg (fun hh : k = k' => h hh.symm)]
  | cons p rest ih =>
    by_cases hp : p.1 = k
    · subst hp
      simp only [aupdate, if_pos rfl, alookup]
      rw [if_neg (fun hh : p.1 = k' => h hh.symm), if_neg (fun hh : p.1 = k' => h hh.symm)]
    · simp only [aupdate, if_neg hp, alookup]
      by_cases hk' : p.1 = k'
      · rw [if_pos hk', if_pos hk']
      · rw [if_neg hk', if_neg hk', ih]

theorem aupdate_of_not_mem_keys {α : Type} (m : List (String × α)) (k : String) (v : α)
    (h : k ∉ keys m) : aupdate m k v = m ++ [(k, v)] := by
  induction m with
  | nil => simp [aupdate]
  | cons p rest ih =>
    simp only [keys, List.map_cons, List.mem_cons, not_or] at h
    simp [aupdate, Ne.symm h.1, ih h.2]

theorem keys_aupdate_mem {α : Type} (m : List (String × α)) (k : String) (v : α)
    (h : k ∈ keys m) : keys (aupdate m k v) = keys m := by
  induction m with
  | nil => simp [keys] at h
  | cons p rest ih =>
    simp only [keys, List.map_cons, List.mem_cons] at h
    by_cases hp : p.1 = k
    · simp [aupdate, hp, keys]
    · rcases h with h | h
      · exact absurd h.symm hp
      · simp only [aupdate, if_neg hp, keys, List.map_cons]
        have := ih h
        simp only [keys] at this
        rw [this]

theorem keys_append {α : Type} (a b : List (String × α)) :
    keys (a ++ b) = keys a ++ keys b := by
  simp [keys]

theorem alookup_append_left {α : Type} (m m' : List (String × α)) (k : String)
    (h : k ∈ keys m) : alookup (m ++ m') k = alookup m k := by
  induction m with
  | nil => simp [keys] at h
  | cons p rest ih =>
    by_cases hp : p.1 = k
    · simp [alookup, hp]
    · simp only [keys, List.map_cons, List.mem_cons] at h
      rcases h with h | h
      · exact absurd h.symm hp
      · simp [alookup, hp, ih h]

theorem alookup_append_right {α : Type} (m m' : List (String × α)) (k : String)
    (h : k ∉ keys m) : alookup (m ++ m') k = alookup m' k := by
  induction m with
  | nil => simp
  | cons p rest ih =>
    simp only [keys, List.map_cons, List.mem_cons, not_or] at h
    simp [alookup, Ne.symm h.1, ih h.2]

theorem alookup_eq_none_of_not_mem_keys {α : Type} (m : List (String × α)) (k : String)
    (h : k ∉ keys m) : alookup m k = none := by
  induction m with
  | nil => simp [alookup]
  | cons p rest ih =>
    simp only [keys, List.map_cons, List.mem_cons, not_or] at h
    simp [alookup, Ne.symm h.1, ih h.2]

theorem mem_keys_of_alookup_eq_some {α : Type} {m : List (String × α)} {k : String} {v : α}
    (h : alookup m k = some v) : k ∈ keys m := by
  by_contra hk
  rw [alookup_eq_none_of_not_mem_keys m k hk] at h
  exact Option.noConfusion h

theorem values_aupdate {α : Type} (P : α → Prop) (m : List (String × α)) (k : String)
    (v : α) (hm : ∀ p ∈ m, P p.2) (hv : P v) : ∀ p ∈ aupdate m k v, P p.2 := by
  induction m with
  | nil =>
    intro p hp
    simp only [aupdate, List.mem_singleton] at hp
    exact hp ▸ hv
  | cons q rest ih =>
    intro p hp
    by_cases hq : q.1 = k
    · simp only [aupdate, if_pos hq, List.mem_cons] at hp
      rcases hp with rfl | hp
      · exact hv
      · exact hm p (List.mem_cons_of_mem q hp)
    · simp only [aupdate, if_neg hq, List.mem_cons] at hp
      rcases hp with rfl | hp
      · exact hm q (List.mem_cons_self q rest)
      · exact ih (fun r hr => hm r (List.mem_cons_of_mem q hr)) p hp

theorem values_writeAll {α : Type} (P : α → Prop) (m items : List (String × α))
    (hm : ∀ p ∈ m, P p.2) (hi : ∀ p ∈ items, P p.2) : ∀ p ∈ writeAll m items, P p.2 := by
  induction items generalizing m with
  | nil => exact hm
  | cons q rest ih =>
    have hq : P q.2 := hi q (List.mem_cons_self q rest)
    exact ih (aupdate m q.1 q.2) (values_aupdate P m q.1 q.2 hm hq)
      (fun r hr => hi r (List.mem_cons_of_mem q hr))

theorem alookup_writeAll_not_mem {α : Type} (m items : List (String × α)) (k : String)
    (h : k ∉ items.map Prod.fst) : alookup (writeAll m items) k = alookup m k := by
  induction items generalizing m with
  | nil => rfl
  | cons q rest ih =>
    simp only [List.map_cons, List.mem_cons, not_or] at h
    show alookup (writeAll (aupdate m q.1 q.2) rest) k = alookup m k
    rw [ih (aupdate m q.1 q.2) h.2, alookup_aupdate_ne m q.1 k q.2 h.1]

theorem alookup_writeAll_mem {α : Type} (m items : List (String × α)) (p : String × α)
    (hp : p ∈ items) (hnd : (items.map Prod.fst).Nodup) :
    alookup (writeAll m items) p.1 = some p.2 := by
  induction items generalizing m with
  | nil => cases hp
  | cons q rest ih =>
    simp only [List.map_cons, List.nodup_cons] at hnd
    rcases List.mem_cons.mp hp with hpe | hp
    · show alookup (writeAll (aupdate m q.1 q.2) rest) p.1 = some p.2
      rw [hpe, alookup_writeAll_not_mem _ _ _ hnd.1, alookup_aupdate_self]
    · exact ih (aupdate m q.1 q.2) hp hnd.2

theorem concatValues_append (a b : List (String × List Video)) :
    concatValues (a ++ b) = concatValues a ++ concatValues b := by
  induction a with
  | nil => simp [concatValues]
  | cons p rest ih => simp [concatValues, ih]

theorem mem_concatValues {v : Video} {m : List (String × List Video)} :
    v ∈ concatValues m ↔ ∃ e ∈ m, v ∈ e.2 := by
  induction m with
  | nil => simp [concatValues]
  | cons p rest ih =>
    simp only [concatValues, List.mem_append, ih, List.mem_cons]
    constructor
    · rintro (h | ⟨e, he, hv⟩)
      · exact ⟨p, Or.inl rfl, h⟩
      · exact ⟨e, Or.inr he, hv⟩
    · rintro ⟨e, he | he, hv⟩
      · exact Or.inl (he ▸ hv)
      · exact Or.inr ⟨e, he, hv⟩

/-! ### Chunking lemmas -/

theorem chunksAux_nil (f : Nat) : chunksAux f [] = [] := by
  cases f <;> rfl

theorem chunksAux_congr : ∀ (f1 f2 : Nat) (l : List String),
    l.length ≤ f1 → l.length ≤ f2 → chunksAux f1 l = chunksAux f2 l := by
  intro f1
  induction f1 with
  | zero =>
    intro f2 l h1 _
    have hl : l = [] := List.length_eq_zero.mp (Nat.le_zero.mp h1)
    subst hl
    rw [chunksAux_nil, chunksAux_nil]
  | succ g ih =>
    intro f2 l h1 h2
    cases l with
    | nil => rw [chunksAux_nil, chunksAux_nil]
    | cons x xs =>
      cases f2 with
      | zero => simp at h2
      | succ g2 =>
        show ((x :: xs).take 50) :: chunksAux g ((x :: xs).drop 50)
          = ((x :: xs).take 50) :: chunksAux g2 ((x :: xs).drop 50)
        congr 1
        apply ih
        · rw [List.length_drop]
          simp only [List.length_cons] at h1 ⊢
          omega
        · rw [List.length_drop]
          simp only [List.length_cons] at h2 ⊢
          omega

theorem chunks50_cons (l : List String) (h : l ≠ []) :
    chunks50 l = l.take 50 :: chunks50 (l.drop 50) := by
  cases l with
  | nil => exact absurd rfl h
  | cons x xs =>
    show ((x :: xs).take 50) :: chunksAux xs.length ((x :: xs).drop 50)
      = ((x :: xs).take 50) :: chunksAux ((x :: xs).drop 50).length ((x :: xs).drop 50)
    congr 1
    apply chunksAux_congr
    · rw [List.length_drop]
      simp only [List.length_cons]
      omega
    · exact le_rfl

theorem chunks50_flatten : ∀ (n : Nat) (l : List String), l.length ≤ n →
    (chunks50 l).flatten = l := by
  intro n
  induction n with
  | zero =>
    intro l h
    have hl : l = [] := List.length_eq_zero.mp (Nat.le_zero.mp h)
    subst hl
    rfl
  | succ g ih =>
    intro l h
    by_cases hl : l = []
    · subst hl; rfl
    · rw [chunks50_cons l hl, List.flatten_cons,
        ih (l.drop 50) (by rw [List.length_drop]; omega)]
      exact List.take_append_drop 50 l

theorem chunks50_length : ∀ (n : Nat) (l : List String), l.length ≤ n →
    (chunks50 l).length = (l.length + 49) / 50 := by
  intro n
  induction n with
  | zero =>
    intro l h
    have hl : l = [] := List.length_eq_zero.mp (Nat.le_zero.mp h)
    subst hl
    rfl
  | succ g ih =>
    intro l h
    by_cases hl : l = []
    · subst hl; rfl
    · rw [chunks50_cons l hl, List.length_cons,
        ih (l.drop 50) (by rw [List.length_drop]; omega), List.length_drop]
      have hpos : 0 < l.length := List.length_pos.mpr hl
      omega

theorem chunks50_sizes : ∀ (n : Nat) (l : List String), l.length ≤ n →
    ∀ b ∈ chunks50 l, b.length ≤ 50 := by
  intro n
  induction n with
  | zero =>
    intro l h b hb
    have hl : l = [] := List.length_eq_zero.mp (Nat.le_zero.mp h)
    subst hl
    cases hb
  | succ g ih =>
    intro l h b hb
    by_cases hl : l = []
    · subst hl; cases hb
    · rw [chunks50_cons l hl] at hb
      rcases List.mem_cons.mp hb with rfl | hb
      · rw [List.length_take]
        omega
      · exact ih (l.drop 50) (by rw [List.length_drop]; omega) b hb

/-! ### Deduplication lemmas -/

theorem mem_dedupAux : ∀ (l : List String) (seen : List String) (x : String),
    x ∈ dedupAux seen l ↔ x ∈ l ∧ x ∉ seen := by
  intro l
  induction l with
  | nil => intro seen x; simp [dedupAux]
  | cons y ys ih =>
    intro seen x
    by_cases hy : y ∈ seen
    · simp only [dedupAux, if_pos hy, ih, List.mem_cons]
      constructor
      · rintro ⟨hx, hs⟩
        exact ⟨Or.inr hx, hs⟩
      · rintro ⟨hx | hx, hs⟩
        · exact absurd (hx ▸ hy) hs
        · exact ⟨hx, hs⟩
    · simp only [dedupAux, if_neg hy, List.mem_cons, ih]
      constructor
      · rintro (rfl | ⟨hx, hs⟩)
        · exact ⟨Or.inl rfl, hy⟩
        · simp only [List.mem_cons, not_or] at hs
          exact ⟨Or.inr hx, hs.2⟩
      · rintro ⟨rfl | hx, hs⟩
        · exact Or.inl rfl
        · by_cases hxy : x = y
          · exact Or.inl hxy
          · refine Or.inr ⟨hx, ?_⟩
            simp only [List.mem_cons, not_or]
            exact ⟨hxy, hs⟩

theorem nodup_dedupAux : ∀ (l : List String) (seen : List String),
    (dedupAux seen l).Nodup := by
  intro l
  induction l with
  | nil => intro seen; exact List.nodup_nil
  | cons y ys ih =>
    intro seen
    by_cases hy : y ∈ seen
    · simp only [dedupAux, if_pos hy]
      exact ih seen
    · simp only [dedupAux, if_neg hy]
      refine List.nodup_cons.mpr ⟨?_, ih (y :: seen)⟩
      rw [mem_dedupAux]
      rintro ⟨_, hs⟩
      exact hs (List.mem_cons_self y seen)

theorem mem_dedupFirst (l : List String) (x : String) :
    x ∈ dedupFirst l ↔ x ∈ l := by
  rw [dedupFirst, mem_dedupAux]
  simp

theorem nodup_dedupFirst (l : List String) : (dedupFirst l).Nodup :=
  nodup_dedupAux l []

/-! ### Patch-analysis lemmas for the name backfill -/

theorem aupdate_append_right {α : Type} (A E : List (String × α)) (k : String) (v : α)
    (h : k ∉ keys A) : aupdate (A ++ E) k v = A ++ aupdate E k v := by
  induction A with
  | nil => rfl
  | cons p rest ih =>
    simp only [keys, List.map_cons, List.mem_cons, not_or] at h
    simp only [List.cons_append, aupdate, if_neg (Ne.symm h.1), List.append_eq]
    rw [ih h.2]

theorem map_id_of_fix {α : Type} (l : List α) (f : α → α) (h : ∀ x ∈ l, f x = x) :
    l.map f = l := by
  rw [List.map_congr_left h]
  simp

theorem keys_map_entry (E : List (String × List Video))
    (f : String × List Video → String × List Video)
    (hf : ∀ e ∈ E, (f e).1 = e.1) : keys (E.map f) = keys E := by
  induction E with
  | nil => rfl
  | cons e rest ih =>
    simp only [List.map_cons, keys, List.map]
    rw [hf e (List.mem_cons_self e rest)]
    have := ih fun e' he' => hf e' (List.mem_cons_of_mem e he')
    simp only [keys] at this
    rw [this]

theorem concatValues_map_entry (f : Video → Video) :
    ∀ (E : List (String × List Video)),
    concatValues (E.map fun e => (e.1, e.2.map f)) = (concatValues E).map f := by
  intro E
  induction E with
  | nil => rfl
  | cons e rest ih =>
    simp only [List.map_cons, concatValues, List.map_append, ih]

theorem mem_collectMissing (env : Env) (vs : List Video) (x : String) :
    x ∈ collectMissing env vs ↔
      ∃ v ∈ vs, v.channelName = x ∧ looksLikeID env x = true := by
  rw [collectMissing, mem_dedupFirst, List.mem_filterMap]
  constructor
  · rintro ⟨v, hv, hfx⟩
    by_cases hl : looksLikeID env v.channelName = true
    · rw [if_pos hl] at hfx
      obtain rfl := Option.some.inj hfx
      exact ⟨v, hv, rfl, hl⟩
    · rw [if_neg hl] at hfx
      exact Option.noConfusion hfx
  · rintro ⟨v, hv, rfl, hl⟩
    exact ⟨v, hv, by rw [if_pos hl]⟩

theorem nodup_collectMissing (env : Env) (vs : List Video) :
    (collectMissing env vs).Nodup :=
  nodup_dedupFirst _

theorem aupdate_eq_map (E : List (String × List Video)) (X : String) (w : List Video)
    (hnd : (keys E).Nodup) (hmem : X ∈ keys E) :
    aupdate E X w = E.map fun e => if e.1 = X then (X, w) else e := by
  induction E with
  | nil => cases hmem
  | cons e rest ih =>
    simp only [keys, List.map_cons, List.nodup_cons] at hnd
    by_cases he : e.1 = X
    · simp only [aupdate, if_pos he, List.map_cons, if_pos he]
      have : ∀ e' ∈ rest, (fun e' => if e'.1 = X then (X, w) else e') e' = e' := by
        intro e' he'
        have hne : e'.1 ≠ X := by
          intro hx
          have hmm : e'.1 ∈ List.map Prod.fst rest := List.mem_map_of_mem Prod.fst he'
          rw [hx, ← he] at hmm
          exact hnd.1 hmm
        simp only [if_neg hne]
      rw [map_id_of_fix rest _ this]
    · simp only [aupdate, if_neg he, List.map_cons, if_neg he, List.cons_inj_right]
      apply ih hnd.2
      simp only [keys] at hmem ⊢
      rcases List.mem_cons.mp hmem with hx | hx
      · exact absurd hx.symm he
      · exact hx

theorem not_mem_keys_of_alookup_eq_none {α : Type} :
    ∀ (m : List (String × α)) (k : String), alookup m k = none → k ∉ keys m := by
  intro m
  induction m with
  | nil =>
    intro k _ hm
    cases hm
  | cons p rest ih =>
    intro k hl hm
    by_cases hp : p.1 = k
    · rw [alookup, if_pos hp] at hl
      exact Option.noConfusion hl
    · rw [alookup, if_neg hp] at hl
      simp only [keys, List.map_cons, List.mem_cons] at hm
      rcases hm with hm | hm
      · exact hp hm.symm
      · exact ih k hl hm

theorem alookup_entry_unique {α : Type} :
    ∀ (m : List (String × α)) (k : String) (v : α) (e : String × α),
    (keys m).Nodup → alookup m k = some v → e ∈ m → e.1 = k → e.2 = v := by
  intro m
  induction m with
  | nil =>
    intro k v e _ _ he
    cases he
  | cons p rest ih =>
    intro k v e hnd hl he hek
    simp only [keys, List.map_cons, List.nodup_cons] at hnd
    by_cases hp : p.1 = k
    · rw [alookup, if_pos hp] at hl
      obtain rfl := Option.some.inj hl
      rcases List.mem_cons.mp he with rfl | he
      · rfl
      · have hmm : e.1 ∈ List.map Prod.fst rest := List.mem_map_of_mem Prod.fst he
        rw [hek, ← hp] at hmm
        exact absurd hmm hnd.1
    · rw [alookup, if_neg hp] at hl
      rcases List.mem_cons.mp he with rfl | he
      · exact absurd hek hp
      · exact ih k v e hnd.2 hl he hek

theorem patchCacheKey_eq_map (E : List (String × List Video)) (X n : String)
    (hnd : (keys E).Nodup) :
    patchCacheKey E X n =
      E.map fun e =>
        if e.1 = X then (e.1, e.2.map fun v => { v with channelName := n }) else e := by
  cases hl : alookup E X with
  | none =>
    have hx := not_mem_keys_of_alookup_eq_none E X hl
    simp only [patchCacheKey, hl]
    refine (map_id_of_fix E _ ?_).symm
    intro e he
    have : e.1 ≠ X := fun hk => hx (hk ▸ List.mem_map_of_mem Prod.fst he)
    simp only [if_neg this]
  | some vsX =>
    simp only [patchCacheKey, hl]
    rw [aupdate_eq_map E X _ hnd (mem_keys_of_alookup_eq_some hl)]
    apply List.map_congr_left
    intro e he
    by_cases hk : e.1 = X
    · rw [if_pos hk, if_pos hk, ← hk,
        alookup_entry_unique E X vsX e hnd hl he hk]
    · rw [if_neg hk, if_neg hk]

theorem mem_of_alookup_eq_some {α : Type} :
    ∀ (m : List (String × α)) (k : String) (v : α),
    alookup m k = some v → (k, v) ∈ m := by
  intro m
  induction m with
  | nil =>
    intro k v h
    exact Option.noConfusion h
  | cons p rest ih =>
    intro k v h
    by_cases hp : p.1 = k
    · rw [alookup, if_pos hp] at h
      obtain rfl := Option.some.inj h
      have : (k, p.2) = p := by
        rw [← hp]
      exact this ▸ List.mem_cons_self p rest
    · rw [alookup, if_neg hp] at h
      exact List.mem_cons_of_mem p (ih k v h)

theorem entries_eq_of_keys_nodup {α : Type} :
    ∀ (m : List (String × α)) (e e' : String × α),
    (keys m).Nodup → e ∈ m → e' ∈ m → e.1 = e'.1 → e = e' := by
  intro m
  induction m with
  | nil =>
    intro e e' _ he
    cases he
  | cons p rest ih =>
    intro e e' hnd he he' hk
    simp only [keys, List.map_cons, List.nodup_cons] at hnd
    rcases List.mem_cons.mp he with he0 | he1
    · rcases List.mem_cons.mp he' with he0' | he1'
      · rw [he0, he0']
      · exfalso
        have hmm : e'.1 ∈ List.map Prod.fst rest := List.mem_map_of_mem Prod.fst he1'
        rw [← hk, he0] at hmm
        exact hnd.1 hmm
    · rcases List.mem_cons.mp he' with he0' | he1'
      · exfalso
        have hmm : e.1 ∈ List.map Prod.fst rest := List.mem_map_of_mem Prod.fst he1
        rw [hk, he0'] at hmm
        exact hnd.1 hmm
      · exact ih e e' hnd.2 he1 he1' hk

theorem patchCache_eq_map (names : List (String × String)) :
    ∀ (missing : List String) (E : List (String × List Video)),
    (keys E).Nodup → missing.Nodup →
    patchCache names missing E = E.map (entryPatch names missing) := by
  intro missing
  induction missing with
  | nil =>
    intro E _ _
    refine Eq.symm (map_id_of_fix E _ ?_)
    intro e _
    simp [entryPatch]
  | cons X rest ih =>
    intro E hE hnd
    simp only [List.nodup_cons] at hnd
    have hstep : patchCache names (X :: rest) E =
        patchCache names rest
          (match alookup names X with
           | some n => patchCacheKey E X n
           | none => E) := rfl
    rw [hstep]
    cases hres : alookup names X with
    | none =>
      simp only [hres]
      rw [ih E hE hnd.2]
      apply List.map_congr_left
      intro e _
      by_cases hk : e.1 = X
      · simp only [entryPatch, hk, List.mem_cons, true_or, if_true, hres]
        rw [if_neg (fun hm : X ∈ rest => hnd.1 hm)]
      · simp only [entryPatch, List.mem_cons, hk, false_or]
    | some n =>
      simp only [hres]
      rw [patchCacheKey_eq_map E X n hE]
      have hkf : ∀ e ∈ E,
          ((fun e => if e.1 = X then
            (e.1, e.2.map fun v => { v with channelName := n }) else e) e).1 = e.1 := by
        intro e _
        by_cases hk : e.1 = X
        · simp [hk]
        · simp [hk]
      have hkeys := keys_map_entry E _ hkf
      rw [ih _ (by rw [hkeys]; exact hE) hnd.2, List.map_map]
      apply List.map_congr_left
      intro e _
      simp only [Function.comp]
      by_cases hk : e.1 = X
      · rw [if_pos hk]
        simp only [entryPatch, hk, List.mem_cons, true_or, if_true, hres]
        rw [if_neg (fun hm : X ∈ rest => hnd.1 hm)]
      · rw [if_neg hk]
        simp only [entryPatch, List.mem_cons, hk, false_or]

theorem entryPatch_eq_patchName (env : Env) (names : List (String × String))
    (E : List (String × List Video)) (cc : List (String × String))
    (hccP : ∀ p ∈ cc, looksLikeID env p.2 = false)
    (hkeysNd : (keys E).Nodup)
    (hQ1 : ∀ e ∈ E, ∀ v ∈ e.2, v.channelName = (alookup cc e.1).getD e.1)
    (e : String × List Video) (he : e ∈ E) :
    entryPatch names (collectMissing env (concatValues E)) e =
      (e.1, e.2.map (patchName env names)) := by
  cases hcc : alookup cc e.1 with
  | some n0 =>
    have hn0 : looksLikeID env n0 = false := hccP (e.1, n0) (mem_of_alookup_eq_some cc e.1 n0 hcc)
    have hvname : ∀ v ∈ e.2, v.channelName = n0 := by
      intro v hv
      rw [hQ1 e he v hv, hcc]
      rfl
    have hmap : e.2.map (patchName env names) = e.2 := by
      apply map_id_of_fix
      intro v hv
      simp [patchName, hvname v hv, hn0]
    have hnm : e.1 ∉ collectMissing env (concatValues E) := by
      rw [mem_collectMissing]
      rintro ⟨v, hvmem, hvn, hlid⟩
      obtain ⟨e', he', hv'⟩ := mem_concatValues.mp hvmem
      have hq := hQ1 e' he' v hv'
      cases hcc' : alookup cc e'.1 with
      | some n1 =>
        have hn1 : looksLikeID env n1 = false :=
          hccP (e'.1, n1) (mem_of_alookup_eq_some cc e'.1 n1 hcc')
        rw [hcc'] at hq
        simp only [Option.getD_some] at hq
        rw [hvn] at hq
        rw [hq] at hlid
        rw [hn1] at hlid
        exact Bool.noConfusion hlid
      | none =>
        rw [hcc'] at hq
        simp only [Option.getD_none] at hq
        rw [hvn] at hq
        have hee : e' = e := entries_eq_of_keys_nodup E e' e hkeysNd he' he hq.symm
        rw [hee, hcc] at hcc'
        exact Option.noConfusion hcc'
    rw [entryPatch, if_neg hnm, hmap]
  | none =>
    have hvname : ∀ v ∈ e.2, v.channelName = e.1 := by
      intro v hv
      rw [hQ1 e he v hv, hcc]
      rfl
    cases hlid : looksLikeID env e.1 with
    | false =>
      have hmap : e.2.map (patchName env names) = e.2 := by
        apply map_id_of_fix
        intro v hv
        simp [patchName, hvname v hv, hlid]
      have hnm : e.1 ∉ collectMissing env (concatValues E) := by
        rw [mem_collectMissing]
        rintro ⟨v, _, _, hl⟩
        rw [hlid] at hl
        exact Bool.noConfusion hl
      rw [entryPatch, if_neg hnm, hmap]
    | true =>
      by_cases he2 : e.2 = []
      · have hee : e = (e.1, []) := by
          rw [← he2]
        rw [hee]
        by_cases hm : e.1 ∈ collectMissing env (concatValues E)
        · cases halk : alookup names e.1 with
          | some n => simp [entryPatch, hm, halk]
          | none => simp [entryPatch, hm, halk]
        · simp [entryPatch, hm]
      · obtain ⟨v0, hv0⟩ := List.exists_mem_of_ne_nil e.2 he2
        have hmm : e.1 ∈ collectMissing env (concatValues E) := by
          rw [mem_collectMissing]
          exact ⟨v0, mem_concatValues.mpr ⟨e, he, hv0⟩, hvname v0 hv0, hlid⟩
        rw [entryPatch, if_pos hmm]
        cases halk : alookup names e.1 with
        | some n =>
          simp only [halk]
          congr 1
          apply List.map_congr_left
          intro v hv
          simp [patchName, hvname v hv, hlid, halk]
        | none =>
          simp only [halk]
          have hmap : e.2.map (patchName env names) = e.2 := by
            apply map_id_of_fix
            intro v hv
            simp [patchName, hvname v hv, hlid, halk]
          rw [hmap]

/-! ### Frame lemmas: which client fields each operation can change -/

theorem processChannels_frame (env : Env) : ∀ (metas : List ChanMeta) (c : Client),
    (processChannels env c metas).2.1.channelCache = c.channelCache ∧
    (processChannels env c metas).2.1.lastFetchTime = c.lastFetchTime ∧
    (processChannels env c metas).2.1.subscribedChannels = c.subscribedChannels ∧
    (processChannels env c metas).2.1.maxVideosPerChannel = c.maxVideosPerChannel ∧
    (processChannels env c metas).2.1.cacheDuration = c.cacheDuration := by
  intro metas
  induction metas with
  | nil => intro c; exact ⟨rfl, rfl, rfl, rfl, rfl⟩
  | cons m rest ih =>
    intro c
    cases hpl : env.playlistItems m.uploads c.maxVideosPerChannel with
    | none =>
      simp only [processChannels, hpl]
      exact ih c
    | some items =>
      simp only [processChannels, hpl]
      exact ih { c with videoCache := aupdate c.videoCache m.id (mkVideos env c.channelCache m.id items) }

theorem resolveBatches_frame (env : Env) : ∀ (bs : List (List String))
    (c : Client) (res : List (String × String)),
    (resolveBatches env c res bs).2.1.videoCache = c.videoCache ∧
    (resolveBatches env c res bs).2.1.lastFetchTime = c.lastFetchTime ∧
    (resolveBatches env c res bs).2.1.subscribedChannels = c.subscribedChannels ∧
    (resolveBatches env c res bs).2.1.maxVideosPerChannel = c.maxVideosPerChannel ∧
    (resolveBatches env c res bs).2.1.cacheDuration = c.cacheDuration := by
  intro bs
  induction bs with
  | nil => intro c res; exact ⟨rfl, rfl, rfl, rfl, rfl⟩
  | cons b rest ih =>
    intro c res
    cases hs : env.snippet b with
    | none =>
      simp only [resolveBatches, hs]
      exact ⟨trivial, trivial, trivial, trivial, trivial⟩
    | some items =>
      simp only [resolveBatches, hs]
      exact ih { c with channelCache := writeAll c.channelCache items } (writeAll res items)

theorem getChannelNames_frame (c : Client) (env : Env) (ids : List String) :
    (GetChannelNamesForIDs c env ids).2.1.videoCache = c.videoCache ∧
    (GetChannelNamesForIDs c env ids).2.1.lastFetchTime = c.lastFetchTime ∧
    (GetChannelNamesForIDs c env ids).2.1.subscribedChannels = c.subscribedChannels ∧
    (GetChannelNamesForIDs c env ids).2.1.maxVideosPerChannel = c.maxVideosPerChannel ∧
    (GetChannelNamesForIDs c env ids).2.1.cacheDuration = c.cacheDuration := by
  cases hmiss : (missingOf c ids).isEmpty with
  | true =>
    simp only [GetChannelNamesForIDs, hmiss, if_true]
    exact ⟨trivial, trivial, trivial, trivial, trivial⟩
  | false =>
    simp only [GetChannelNamesForIDs, hmiss, Bool.false_eq_true, if_false]
    exact resolveBatches_frame env (chunks50 (missingOf c ids)) c _

theorem fetch_frame (c : Client) (env : Env) (ids : List String) :
    (fetchVideosForChannels c env ids).2.1.lastFetchTime = c.lastFetchTime ∧
    (fetchVideosForChannels c env ids).2.1.subscribedChannels = c.subscribedChannels ∧
    (fetchVideosForChannels c env ids).2.1.maxVideosPerChannel = c.maxVideosPerChannel ∧
    (fetchVideosForChannels c env ids).2.1.cacheDuration = c.cacheDuration := by
  cases hm : env.contentDetails ids with
  | none =>
    simp only [fetchVideosForChannels, hm]
    exact ⟨trivial, trivial, trivial, trivial⟩
  | some metas =>
    have h1 := processChannels_frame env metas c
    have h2 := getChannelNames_frame (processChannels env c metas).2.1 env
      (collectMissing env (processChannels env c metas).1)
    simp only [fetchVideosForChannels, hm]
    cases hmiss : (collectMissing env (processChannels env c metas).1).isEmpty with
    | true =>
      simp only [hmiss, if_true]
      exact ⟨h1.2.1, h1.2.2.1, h1.2.2.2.1, h1.2.2.2.2⟩
    | false =>
      simp only [hmiss, Bool.false_eq_true, if_false]
      cases hres : GetChannelNamesForIDs (processChannels env c metas).2.1 env
        (collectMissing env (processChannels env c metas).1) with
      | mk rfst rsnd =>
        rw [hres] at h2
        cases rfst with
        | none =>
          simp only
          exact ⟨h2.2.1.trans h1.2.1, h2.2.2.1.trans h1.2.2.1,
            h2.2.2.2.1.trans h1.2.2.2.1, h2.2.2.2.2.trans h1.2.2.2.2⟩
        | some names =>
          simp only
          exact ⟨h2.2.1.trans h1.2.1, h2.2.2.1.trans h1.2.2.1,
            h2.2.2.2.1.trans h1.2.2.2.1, h2.2.2.2.2.trans h1.2.2.2.2⟩

theorem runBatches_frame (env : Env) : ∀ (bs : List (List String)) (c : Client),
    (runBatches env c bs).2.1.lastFetchTime = c.lastFetchTime ∧
    (runBatches env c bs).2.1.subscribedChannels = c.subscribedChannels ∧
    (runBatches env c bs).2.1.maxVideosPerChannel = c.maxVideosPerChannel ∧
    (runBatches env c bs).2.1.cacheDuration = c.cacheDuration := by
  intro bs
  induction bs with
  | nil => intro c; exact ⟨rfl, rfl, rfl, rfl⟩
  | cons b rest ih =>
    intro c
    have h1 := fetch_frame c env b
    cases hf : fetchVideosForChannels c env b with
    | mk ffst fsnd =>
      rw [hf] at h1
      cases ffst with
      | none =>
        simp only [runBatches, hf]
        exact h1
      | some vs =>
        have h2 := ih fsnd.1
        cases hr : runBatches env fsnd.1 rest with
        | mk rfst rsnd =>
          rw [hr] at h2
          simp only [runBatches, hf, hr]
          cases rfst with
          | none =>
            simp only
            exact ⟨h2.1.trans h1.1, h2.2.1.trans h1.2.1,
              h2.2.2.1.trans h1.2.2.1, h2.2.2.2.trans h1.2.2.2⟩
          | some rest2 =>
            simp only
            exact ⟨h2.1.trans h1.1, h2.2.1.trans h1.2.1,
              h2.2.2.1.trans h1.2.2.1, h2.2.2.2.trans h1.2.2.2⟩

/-! ### Which events are channel-metadata calls -/

theorem metaCalls_append (a b : List Event) :
    metaCalls (a ++ b) = metaCalls a ++ metaCalls b :=
  List.filterMap_append a b _

theorem metaCalls_processChannels (env : Env) : ∀ (metas : List ChanMeta) (c : Client),
    metaCalls (processChannels env c metas).2.2 = [] := by
  intro metas
  induction metas with
  | nil => intro c; rfl
  | cons m rest ih =>
    intro c
    cases hpl : env.playlistItems m.uploads c.maxVideosPerChannel with
    | none =>
      simp only [processChannels, hpl, metaCalls, List.filterMap_cons]
      exact ih c
    | some items =>
      simp only [processChannels, hpl, metaCalls, List.filterMap_cons]
      exact ih _

theorem metaCalls_resolveBatches (env : Env) : ∀ (bs : List (List String))
    (c : Client) (res : List (String × String)),
    metaCalls (resolveBatches env c res bs).2.2 = [] := by
  intro bs
  induction bs with
  | nil => intro c res; rfl
  | cons b rest ih =>
    intro c res
    cases hs : env.snippet b with
    | none => simp [resolveBatches, hs, metaCalls, List.filterMap_cons]
    | some items =>
      simp only [resolveBatches, hs, metaCalls, List.filterMap_cons]
      exact ih _ _

theorem metaCalls_getChannelNames (c : Client) (env : Env) (ids : List String) :
    metaCalls (GetChannelNamesForIDs c env ids).2.2 = [] := by
  cases hmiss : (missingOf c ids).isEmpty with
  | true => simp only [GetChannelNamesForIDs, hmiss, if_true]; rfl
  | false =>
    simp only [GetChannelNamesForIDs, hmiss, Bool.false_eq_true, if_false]
    exact metaCalls_resolveBatches env _ c _

theorem metaCalls_fetch (c : Client) (env : Env) (ids : List String) :
    metaCalls (fetchVideosForChannels c env ids).2.2 = [ids] := by
  cases hm : env.contentDetails ids with
  | none => simp [fetchVideosForChannels, hm, metaCalls, List.filterMap_cons]
  | some metas =>
    have h1 := metaCalls_processChannels env metas c
    have h2 := metaCalls_getChannelNames (processChannels env c metas).2.1 env
      (collectMissing env (processChannels env c metas).1)
    simp only [fetchVideosForChannels, hm]
    cases hmiss : (collectMissing env (processChannels env c metas).1).isEmpty with
    | true =>
      simp only [hmiss, if_true, metaCalls, List.filterMap_cons]
      simp only [metaCalls] at h1
      rw [h1]
    | false =>
      simp only [hmiss, Bool.false_eq_true, if_false]
      cases hres : GetChannelNamesForIDs (processChannels env c metas).2.1 env
        (collectMissing env (processChannels env c metas).1) with
      | mk rfst rsnd =>
        rw [hres] at h2
        cases rfst with
        | none =>
          simp only [metaCalls, List.filterMap_cons, List.filterMap_append]
          simp only [metaCalls] at h1 h2
          rw [h1, h2]
          rfl
        | some names =>
          simp only [metaCalls, List.filterMap_cons, List.filterMap_append]
          simp only [metaCalls] at h1 h2
          rw [h1, h2]
          rfl

theorem metaCalls_runBatches (env : Env) : ∀ (bs : List (List String)) (c : Client)
    (vs : List Video) (c2 : Client) (ev : List Event),
    runBatches env c bs = (some vs, c2, ev) → metaCalls ev = bs := by
  intro bs
  induction bs with
  | nil =>
    intro c vs c2 ev h
    simp only [runBatches, Prod.mk.injEq, Option.some.injEq] at h
    rw [← h.2.2]
    rfl
  | cons b rest ih =>
    intro c vs c2 ev h
    have hf1 := metaCalls_fetch c env b
    simp only [runBatches] at h
    cases hf : fetchVideosForChannels c env b with
    | mk ffst fsnd =>
      rw [hf] at h hf1
      cases ffst with
      | none => simp at h
      | some vs' =>
        simp only [] at h
        cases hr : runBatches env fsnd.1 rest with
        | mk rfst rsnd =>
          rw [hr] at h
          cases rfst with
          | none => simp at h
          | some vs'' =>
            simp only [Prod.mk.injEq, Option.some.injEq] at h
            rw [← h.2.2, metaCalls_append, hf1,
              ih fsnd.1 vs'' rsnd.1 rsnd.2 (by rw [hr])]
            rfl

/-! ### Sortedness of the returned sequences -/

theorem sortVideos_chain (l : List Video) :
    List.Chain' (fun a b => b.publishedAt ≤ a.publishedAt) (sortVideos l) :=
  List.Pairwise.chain' (List.sorted_insertionSort vle l)

/-- C2: during a GetLatestVideos rebuild, lastFetchTime is promoted to the
current time only when the whole call succeeds; when the call returns an
error, lastFetchTime is left exactly as it was. -/
theorem claim2_lastFetchTime (c : Client) (env : Env) :
    (∀ c2 ev, GetLatestVideos c env = (none, c2, ev) →
      c2.lastFetchTime = c.lastFetchTime) ∧
    (cacheFresh c env = false →
      ∀ vs c2 ev, GetLatestVideos c env = (some vs, c2, ev) →
        c2.lastFetchTime = some env.now) := by
  cases hfresh : cacheFresh c env with
  | true =>
    constructor
    · intro c2 ev h
      simp only [GetLatestVideos, hfresh, if_true] at h
      simp at h
    · intro hf
      simp at hf
  | false =>
    constructor
    · intro c2 ev h
      simp only [GetLatestVideos, hfresh, Bool.false_eq_true, if_false] at h
      have hfr := runBatches_frame env (chunks50 c.subscribedChannels) c
      cases hrb : runBatches env c (chunks50 c.subscribedChannels) with
      | mk rfst rsnd =>
        rw [hrb] at h hfr
        cases rfst with
        | none =>
          simp only [Prod.mk.injEq] at h
          rw [← h.2.1]
          exact hfr.1
        | some vs' => simp at h
    · intro _ vs c2 ev h
      simp only [GetLatestVideos, hfresh, Bool.false_eq_true, if_false] at h
      cases hrb : runBatches env c (chunks50 c.subscribedChannels) with
      | mk rfst rsnd =>
        rw [hrb] at h
        cases rfst with
        | none => simp at h
        | some vs' =>
          simp only [Prod.mk.injEq, Option.some.injEq] at h
          rw [← h.2.1]

/-- Witness for C2: a failing rebuild of the concrete client keeps the zero
lastFetchTime, and a successful one promotes it to the current time. -/
theorem claim2_witness :
    (GetLatestVideos wClient wEnvErr).2.1.lastFetchTime = wClient.lastFetchTime ∧
    (GetLatestVideos wClient wEnv).2.1.lastFetchTime = some wEnv.now :=
  ⟨(claim2_lastFetchTime wClient wEnvErr).1 (GetLatestVideos wClient wEnvErr).2.1
      (GetLatestVideos wClient wEnvErr).2.2 (by decide),
   (claim2_lastFetchTime wClient wEnv).2 (by decide)
      ((GetLatestVideos wClient wEnv).1.getD []) (GetLatestVideos wClient wEnv).2.1
      (GetLatestVideos wClient wEnv).2.2 (by decide)⟩

/-- C3: every video sequence returned by GetLatestVideos, on the cache-hit
path as well as after a rebuild, is sorted descending by publication time:
each adjacent pair (a, b) satisfies a.publishedAt >= b.publishedAt. -/
theorem claim3_sorted (c : Client) (env : Env) (vs : List Video) (c2 : Client)
    (ev : List Event) (h : GetLatestVideos c env = (some vs, c2, ev)) :
    List.Chain' (fun a b => b.publishedAt ≤ a.publishedAt) vs := by
  cases hfresh : cacheFresh c env with
  | true =>
    simp only [GetLatestVideos, hfresh, if_true, Prod.mk.injEq, Option.some.injEq] at h
    rw [← h.1]
    exact sortVideos_chain _
  | false =>
    simp only [GetLatestVideos, hfresh, Bool.false_eq_true, if_false] at h
    cases hrb : runBatches env c (chunks50 c.subscribedChannels) with
    | mk rfst rsnd =>
      rw [hrb] at h
      cases rfst with
      | none => simp at h
      | some vs' =>
        simp only [Prod.mk.injEq, Option.some.injEq] at h
        rw [← h.1]
        exact sortVideos_chain _

/-- Witness for C3 at the concrete two-channel rebuild. -/
theorem claim3_witness :
    List.Chain' (fun a b => b.publishedAt ≤ a.publishedAt)
      ((GetLatestVideos wClient wEnv).1.getD []) :=
  claim3_sorted wClient wEnv ((GetLatestVideos wClient wEnv).1.getD [])
    (GetLatestVideos wClient wEnv).2.1 (GetLatestVideos wClient wEnv).2.2 (by decide)

/-- C4: a full successful rebuild issues its channel-metadata calls exactly
on the consecutive chunks of at most 50 subscribed channels: the calls are
the chunks in order, there are ceil(N/50) of them, each carries at most 50
IDs, and together they cover the subscription list exactly. -/
theorem claim4_batching (c : Client) (env : Env) (vs : List Video) (c2 : Client)
    (ev : List Event) (hfresh : cacheFresh c env = false)
    (h : GetLatestVideos c env = (some vs, c2, ev)) :
    metaCalls ev = chunks50 c.subscribedChannels ∧
    (metaCalls ev).length = (c.subscribedChannels.length + 49) / 50 ∧
    (∀ b ∈ metaCalls ev, b.length ≤ 50) ∧
    (metaCalls ev).flatten = c.subscribedChannels := by
  simp only [GetLatestVideos, hfresh, Bool.false_eq_true, if_false] at h
  cases hrb : runBatches env c (chunks50 c.subscribedChannels) with
  | mk rfst rsnd =>
    rw [hrb] at h
    cases rfst with
    | none => simp at h
    | some vs' =>
      simp only [Prod.mk.injEq, Option.some.injEq] at h
      have hm : metaCalls rsnd.2 = chunks50 c.subscribedChannels :=
        metaCalls_runBatches env _ c vs' rsnd.1 rsnd.2 (by rw [hrb])
      rw [← h.2.2, hm]
      exact ⟨rfl, chunks50_length _ _ le_rfl, chunks50_sizes _ _ le_rfl,
        chunks50_flatten _ _ le_rfl⟩

/-- Witness for C4: the concrete rebuild over two subscriptions issues its
metadata calls on exactly the single chunk of both channel IDs. -/
theorem claim4_witness :
    metaCalls (GetLatestVideos wClient wEnv).2.2 = chunks50 wClient.subscribedChannels ∧
    (metaCalls (GetLatestVideos wClient wEnv).2.2).length = 1 :=
  ⟨(claim4_batching wClient wEnv ((GetLatestVideos wClient wEnv).1.getD [])
      (GetLatestVideos wClient wEnv).2.1 (GetLatestVideos wClient wEnv).2.2
      (by decide) (by decide)).1,
   by
    rw [(claim4_batching wClient wEnv ((GetLatestVideos wClient wEnv).1.getD [])
      (GetLatestVideos wClient wEnv).2.1 (GetLatestVideos wClient wEnv).2.2
      (by decide) (by decide)).2.1]
    decide⟩

/-- C6: inside fetchVideosForChannels, a failing playlist fetch skips only
that channel while the loop continues and the call still succeeds, whereas
a failing batch metadata call aborts the whole batch with an error. -/
theorem claim6_failureGranularity (c : Client) (env : Env) (b : List String) :
    (env.contentDetails b = none →
      fetchVideosForChannels c env b = (none, c, [Event.contentDetailsCall b])) ∧
    (∀ metas, env.contentDetails b = some metas →
      (fetchVideosForChannels c env b).1.isSome = true) ∧
    (∀ (m : ChanMeta) (rest : List ChanMeta),
      env.playlistItems m.uploads c.maxVideosPerChannel = none →
      processChannels env c (m :: rest) =
        ((processChannels env c rest).1, (processChannels env c rest).2.1,
         Event.playlistItemsCall m.uploads :: (processChannels env c rest).2.2)) := by
  refine ⟨?_, ?_, ?_⟩
  · intro hm
    simp [fetchVideosForChannels, hm]
  · intro metas hm
    simp only [fetchVideosForChannels, hm]
    cases hmiss : (collectMissing env (processChannels env c metas).1).isEmpty with
    | true => simp [hmiss]
    | false =>
      simp only [hmiss, Bool.false_eq_true, if_false]
      cases hres : GetChannelNamesForIDs (processChannels env c metas).2.1 env
        (collectMissing env (processChannels env c metas).1) with
      | mk rfst rsnd => cases rfst <;> simp
  · intro m rest hpl
    simp [processChannels, hpl]

/-- Witness for C6: a failed metadata call aborts the concrete batch, while
a failed playlist fetch for UCX only skips that channel. -/
theorem claim6_witness :
    fetchVideosForChannels wClient wEnvErr ["UCA", "UCX"] =
      (none, wClient, [Event.contentDetailsCall ["UCA", "UCX"]]) ∧
    (fetchVideosForChannels wClient wEnvHalf ["UCA", "UCX"]).1.isSome = true ∧
    processChannels wEnvHalf wClient [ChanMeta.mk "UCX" "PX", ChanMeta.mk "UCA" "PA"] =
      ((processChannels wEnvHalf wClient [ChanMeta.mk "UCA" "PA"]).1,
       (processChannels wEnvHalf wClient [ChanMeta.mk "UCA" "PA"]).2.1,
       Event.playlistItemsCall "PX" ::
         (processChannels wEnvHalf wClient [ChanMeta.mk "UCA" "PA"]).2.2) :=
  ⟨(claim6_failureGranularity wClient wEnvErr ["UCA", "UCX"]).1 (by decide),
   (claim6_failureGranularity wClient wEnvHalf ["UCA", "UCX"]).2.1
     [ChanMeta.mk "UCA" "PA", ChanMeta.mk "UCX" "PX"] (by decide),
   (claim6_failureGranularity wClient wEnvHalf ["UCA", "UCX"]).2.2
     (ChanMeta.mk "UCX" "PX") [ChanMeta.mk "UCA" "PA"] (by decide)⟩

/-- C7: AddSubscription with an already subscribed channel ID (when the
remote validation finds the channel) returns the duplicate error, leaves
the client - in particular the subscription list - completely unchanged,
and performs no persistence. -/
theorem claim7_duplicateAdd (c : Client) (env : Env) (ch : String)
    (hmem : ch ∈ c.subscribedChannels) (items : List (String × String))
    (hsnip : env.snippet [ch] = some items) (hne : items.isEmpty = false) :
    AddSubscription c env ch = (some SubError.duplicate, c, [Event.snippetCall [ch]]) := by
  simp [AddSubscription, hsnip, hne, hmem]

/-- Witness for C7: adding UCA twice on the concrete client is rejected
with the client unchanged. -/
theorem claim7_witness :
    AddSubscription wClient wEnv "UCA" =
      (some SubError.duplicate, wClient, [Event.snippetCall ["UCA"]]) :=
  claim7_duplicateAdd wClient wEnv "UCA" (by decide) [("UCA", "Alice")]
    (by decide) (by decide)

/-- C8: marking a video as watched makes isWatched of that video true,
while a video that was never marked stays unwatched. -/
theorem claim8_watchedTracker (s : WatchedStore) :
    isWatched (markWatched s "v1") "v1" = true ∧
    (isWatched s "v2" = false → isWatched (markWatched s "v1") "v2" = false) := by
  constructor
  · simp [isWatched, markWatched]
  · intro h
    simp only [isWatched, markWatched] at h ⊢
    rw [List.contains_cons, h]
    decide

/-- Witness for C8 on the empty store. -/
theorem claim8_witness :
    isWatched (markWatched wStore "v1") "v1" = true ∧
    isWatched (markWatched wStore "v1") "v2" = false :=
  ⟨(claim8_watchedTracker wStore).1, (claim8_watchedTracker wStore).2 (by decide)⟩

/-- C9: when a rebuild fails on its second batch, the whole call errors,
but the per-channel video-cache entries written by the first batch remain
in place (the error path restores nothing); only lastFetchTime keeps its
previous value. -/
theorem claim9_partialCacheRetained (c : Client) (env : Env) (b1 b2 : List String)
    (hfresh : cacheFresh c env = false)
    (hch : chunks50 c.subscribedChannels = [b1, b2])
    (hb1 : (fetchVideosForChannels c env b1).1.isSome = true)
    (hb2 : env.contentDetails b2 = none) :
    GetLatestVideos c env =
      (none, (fetchVideosForChannels c env b1).2.1,
        (fetchVideosForChannels c env b1).2.2 ++ [Event.contentDetailsCall b2]) ∧
    (fetchVideosForChannels c env b1).2.1.lastFetchTime = c.lastFetchTime := by
  constructor
  · simp only [GetLatestVideos, hfresh, Bool.false_eq_true, if_false, hch]
    cases hf : fetchVideosForChannels c env b1 with
    | mk ffst fsnd =>
      rw [hf] at hb1
      cases ffst with
      | none => simp at hb1
      | some vs1 =>
        have hf2 : ∀ cx : Client, fetchVideosForChannels cx env b2 =
            (none, cx, [Event.contentDetailsCall b2]) := by
          intro cx
          simp [fetchVideosForChannels, hb2]
        simp only [runBatches, hf, hf2]
  · exact (fetch_frame c env b1).1

/-- Witness for C9: with 51 subscriptions the first batch writes channel
UC0's entry into the video cache; the failing second batch leaves it
there while the call errors and lastFetchTime stays zero. -/
theorem claim9_witness :
    (GetLatestVideos c9Client c9Env).1 = none ∧
    (GetLatestVideos c9Client c9Env).2.1.videoCache ≠ c9Client.videoCache ∧
    (GetLatestVideos c9Client c9Env).2.1.lastFetchTime = c9Client.lastFetchTime := by
  have h := claim9_partialCacheRetained c9Client c9Env (fiftyOneIds.take 50)
    (fiftyOneIds.drop 50) (by decide) (by decide) (by decide) (by decide)
  refine ⟨?_, ?_, ?_⟩
  · rw [h.1]
  · rw [h.1]
    decide
  · rw [h.1]
    exact h.2

/-! ### Per-channel processing membership, for C10 -/

theorem patchName_id (env : Env) (names : List (String × String)) (v : Video) :
    (patchName env names v).id = v.id := by
  unfold patchName
  by_cases h : looksLikeID env v.channelName = true
  · rw [if_pos h]
    cases alookup names v.channelName <;> rfl
  · rw [if_neg h]

theorem patchName_publishedAt (env : Env) (names : List (String × String)) (v : Video) :
    (patchName env names v).publishedAt = v.publishedAt := by
  unfold patchName
  by_cases h : looksLikeID env v.channelName = true
  · rw [if_pos h]
    cases alookup names v.channelName <;> rfl
  · rw [if_neg h]

theorem processChannels_mem (env : Env) (m : ChanMeta) (items : List PlaylistItem)
    (it : PlaylistItem) (hit : it ∈ items) :
    ∀ (metas : List ChanMeta) (c : Client), m ∈ metas →
    env.playlistItems m.uploads c.maxVideosPerChannel = some items →
    ∃ v ∈ (processChannels env c metas).1,
      v.id = it.videoId ∧ v.publishedAt = (env.parseTime it.publishedAt).getD env.now := by
  intro metas
  induction metas with
  | nil => intro c hm; cases hm
  | cons m' rest ih =>
    intro c hm hpl
    rcases List.mem_cons.mp hm with rfl | hm
    · simp only [processChannels, hpl]
      refine ⟨_, List.mem_append_left _ (List.mem_map_of_mem _ hit), rfl, rfl⟩
    · cases hpl' : env.playlistItems m'.uploads c.maxVideosPerChannel with
      | none =>
        simp only [processChannels, hpl']
        exact ih c hm hpl
      | some items' =>
        simp only [processChannels, hpl']
        obtain ⟨v, hv, hvp⟩ := ih
          { c with videoCache := aupdate c.videoCache m'.id (mkVideos env c.channelCache m'.id items') }
          hm hpl
        exact ⟨v, List.mem_append_right _ hv, hvp⟩

/-- C10: a feed item whose publishedAt string fails to parse is kept in the
batch result with its publication time set to the current wall-clock time;
and any video carrying the maximal timestamp of its list is placed at the
head of the descending sort. -/
theorem claim10_parseFallback (c : Client) (env : Env) (b : List String)
    (metas : List ChanMeta) (m : ChanMeta) (items : List PlaylistItem)
    (it : PlaylistItem)
    (hmeta : env.contentDetails b = some metas) (hm : m ∈ metas)
    (hitems : env.playlistItems m.uploads c.maxVideosPerChannel = some items)
    (hit : it ∈ items) (hparse : env.parseTime it.publishedAt = none) :
    (∃ vs, (fetchVideosForChannels c env b).1 = some vs ∧
      ∃ v ∈ vs, v.id = it.videoId ∧ v.publishedAt = env.now) ∧
    (∀ (l : List Video) (v : Video), v ∈ l → v.publishedAt = env.now →
      (∀ w ∈ l, w.publishedAt ≤ env.now) →
      ∃ hd, (sortVideos l).head? = some hd ∧ hd.publishedAt = env.now) := by
  constructor
  · obtain ⟨v, hv, hvid, hvp⟩ := processChannels_mem env m items it hit metas c hm hitems
    rw [hparse] at hvp
    simp only [Option.getD_none] at hvp
    simp only [fetchVideosForChannels, hmeta]
    cases hmiss : (collectMissing env (processChannels env c metas).1).isEmpty with
    | true =>
      simp only [hmiss, if_true]
      exact ⟨_, rfl, v, hv, hvid, hvp⟩
    | false =>
      simp only [hmiss, Bool.false_eq_true, if_false]
      cases hres : GetChannelNamesForIDs (processChannels env c metas).2.1 env
        (collectMissing env (processChannels env c metas).1) with
      | mk rfst rsnd =>
        cases rfst with
        | none => exact ⟨_, rfl, v, hv, hvid, hvp⟩
        | some names =>
          refine ⟨_, rfl, patchName env names v, List.mem_map_of_mem _ hv, ?_, ?_⟩
          · rw [patchName_id, hvid]
          · rw [patchName_publishedAt, hvp]
  · intro l v hv he hall
    cases hsort : sortVideos l with
    | nil =>
      exfalso
      have : v ∈ sortVideos l := by
        unfold sortVideos
        rw [List.mem_insertionSort vle]
        exact hv
      rw [hsort] at this
      cases this
    | cons hd tl =>
      refine ⟨hd, rfl, ?_⟩
      have hsorted : List.Pairwise vle (sortVideos l) := List.sorted_insertionSort vle l
      rw [hsort] at hsorted
      have hdl : hd ∈ l := by
        have hdmem : hd ∈ sortVideos l := by
          rw [hsort]
          exact List.mem_cons_self hd tl
        unfold sortVideos at hdmem
        exact (List.mem_insertionSort vle).mp hdmem
      have hdle : hd.publishedAt ≤ env.now := hall hd hdl
      have hvmem : v ∈ sortVideos l := by
        unfold sortVideos
        rw [List.mem_insertionSort vle]
        exact hv
      rw [hsort] at hvmem
      rcases List.mem_cons.mp hvmem with rfl | hvtl
      · exact he
      · have hvle : vle hd v := (List.pairwise_cons.mp hsorted).1 v hvtl
        have : env.now ≤ hd.publishedAt := he ▸ hvle
        exact Nat.le_antisymm hdle this

/-- Witness for C10: with every timestamp unparsable, video a1 is kept with
publication time 100 (the current time) and heads the sorted result. -/
theorem claim10_witness :
    (∃ vs, (fetchVideosForChannels wClient wEnvBadTime ["UCA", "UCX"]).1 = some vs ∧
      ∃ v ∈ vs, v.id = "a1" ∧ v.publishedAt = wEnvBadTime.now) :=
  (claim10_parseFallback wClient wEnvBadTime ["UCA", "UCX"]
    [ChanMeta.mk "UCA" "PA", ChanMeta.mk "UCX" "PX"] (ChanMeta.mk "UCA" "PA")
    [PlaylistItem.mk "a1" "video a1" "ta1" "th"] (PlaylistItem.mk "a1" "video a1" "ta1" "th")
    (by decide) (by decide) (by decide) (by decide) (by decide)).1

/-- C5: when resolving channel names fails on the second batch, the whole
call reports an error, yet every name resolved by the first, successful
batch is already written into the shared channel-name cache, and a
subsequent resolve of any such ID is answered purely from the cache (no
remote call, client unchanged). -/
theorem claim5_partialProgress (c : Client) (env : Env) (ids : List String)
    (b1 b2 : List String) (rest : List (List String))
    (items1 : List (String × String))
    (hch : chunks50 (missingOf c ids) = b1 :: b2 :: rest)
    (h1 : env.snippet b1 = some items1)
    (h2 : env.snippet b2 = none)
    (hnd : (items1.map Prod.fst).Nodup) :
    (GetChannelNamesForIDs c env ids).1 = none ∧
    (∀ p ∈ items1,
      alookup (GetChannelNamesForIDs c env ids).2.1.channelCache p.1 = some p.2) ∧
    (∀ p ∈ items1,
      GetChannelNamesForIDs (GetChannelNamesForIDs c env ids).2.1 env [p.1] =
        (some [(p.1, p.2)], (GetChannelNamesForIDs c env ids).2.1, [])) := by
  have hmne : missingOf c ids ≠ [] := by
    intro he
    rw [he] at hch
    exact List.noConfusion hch
  have hie : (missingOf c ids).isEmpty = false := by
    cases hmi : missingOf c ids with
    | nil => exact absurd hmi hmne
    | cons x xs => rfl
  have key : GetChannelNamesForIDs c env ids =
      (none, { c with channelCache := writeAll c.channelCache items1 },
       [Event.snippetCall b1, Event.snippetCall b2]) := by
    simp only [GetChannelNamesForIDs, hie, Bool.false_eq_true, if_false, hch,
      resolveBatches, h1, h2]
  rw [key]
  have hlook : ∀ p ∈ items1,
      alookup (writeAll c.channelCache items1) p.1 = some p.2 :=
    fun p hp => alookup_writeAll_mem c.channelCache items1 p hp hnd
  refine ⟨rfl, hlook, ?_⟩
  intro p hp
  have hl := hlook p hp
  simp only [GetChannelNamesForIDs, missingOf, List.filter_cons, List.filter_nil,
    hl, Option.isNone_some, List.isEmpty_nil, if_true, List.foldl, Bool.false_eq_true,
    if_false, cond_false]
  rfl

/-- Witness for C5: 51 uncached IDs split into a successful batch of 50 and
a failing singleton batch; the 50 resolved names are served from the cache
afterwards. -/
theorem claim5_witness :
    (GetChannelNamesForIDs c5Client c5Env fiftyOneIds).1 = none ∧
    (∀ p ∈ (fiftyOneIds.take 50).map (fun i => (i, String.append i " name")),
      alookup (GetChannelNamesForIDs c5Client c5Env fiftyOneIds).2.1.channelCache p.1 =
        some p.2) :=
  ⟨(claim5_partialProgress c5Client c5Env fiftyOneIds (fiftyOneIds.take 50)
      (fiftyOneIds.drop 50) [] ((fiftyOneIds.take 50).map fun i => (i, String.append i " name"))
      (by decide) (by decide) (by decide) (by decide)).1,
   (claim5_partialProgress c5Client c5Env fiftyOneIds (fiftyOneIds.take 50)
      (fiftyOneIds.drop 50) [] ((fiftyOneIds.take 50).map fun i => (i, String.append i " name"))
      (by decide) (by decide) (by decide) (by decide)).2.1⟩

/-! ### Cache-content specification of the rebuild, for C1 -/

theorem processChannels_spec (env : Env) :
    ∀ (metas : List ChanMeta) (c : Client),
    (metas.map ChanMeta.id).Nodup →
    (∀ m ∈ metas, m.id ∉ keys c.videoCache) →
    ∃ E : List (String × List Video),
      (processChannels env c metas).2.1.videoCache = c.videoCache ++ E ∧
      concatValues E = (processChannels env c metas).1 ∧
      (keys E).Nodup ∧
      (∀ k ∈ keys E, k ∈ metas.map ChanMeta.id) ∧
      (∀ e ∈ E, ∀ v ∈ e.2, v.channelName = (alookup c.channelCache e.1).getD e.1) := by
  intro metas
  induction metas with
  | nil =>
    intro c _ _
    refine ⟨[], by simp [processChannels], rfl, List.nodup_nil, ?_, ?_⟩
    · intro k hk
      cases hk
    · intro e he
      cases he
  | cons m rest ih =>
    intro c hnd hfresh
    simp only [List.map_cons, List.nodup_cons] at hnd
    cases hpl : env.playlistItems m.uploads c.maxVideosPerChannel with
    | none =>
      simp only [processChannels, hpl]
      obtain ⟨E, h1, h2, h3, h4, h5⟩ :=
        ih c hnd.2 (fun m' hm' => hfresh m' (List.mem_cons_of_mem m hm'))
      exact ⟨E, h1, h2, h3,
        fun k hk => List.mem_cons_of_mem m.id (h4 k hk), h5⟩
    | some items =>
      simp only [processChannels, hpl]
      have hmid : m.id ∉ keys c.videoCache := hfresh m (List.mem_cons_self m rest)
      have hupd : aupdate c.videoCache m.id (mkVideos env c.channelCache m.id items) =
          c.videoCache ++ [(m.id, mkVideos env c.channelCache m.id items)] :=
        aupdate_of_not_mem_keys _ _ _ hmid
      have hfresh1 : ∀ m' ∈ rest,
          m'.id ∉ keys (aupdate c.videoCache m.id (mkVideos env c.channelCache m.id items)) := by
        intro m' hm'
        rw [hupd, keys, List.map_append]
        intro hmem
        rcases List.mem_append.mp hmem with hmem | hmem
        · exact hfresh m' (List.mem_cons_of_mem m hm') hmem
        · simp only [List.map_cons, List.map_nil, List.mem_singleton] at hmem
          exact hnd.1 (hmem ▸ List.mem_map_of_mem ChanMeta.id hm')
      obtain ⟨E, h1, h2, h3, h4, h5⟩ := ih
        { c with videoCache := aupdate c.videoCache m.id (mkVideos env c.channelCache m.id items) }
        hnd.2 hfresh1
      refine ⟨(m.id, mkVideos env c.channelCache m.id items) :: E, ?_, ?_, ?_, ?_, ?_⟩
      · rw [h1]
        show aupdate c.videoCache m.id _ ++ E = _
        rw [hupd, List.append_assoc]
        rfl
      · simp only [concatValues, h2]
      · refine List.nodup_cons.mpr ⟨?_, h3⟩
        intro hmem
        have := h4 m.id hmem
        exact hnd.1 this
      · intro k hk
        simp only [keys, List.map_cons, List.mem_cons] at hk
        rcases hk with hk | hk
        · exact hk ▸ List.mem_cons_self m.id _
        · exact List.mem_cons_of_mem m.id (h4 k hk)
      · intro e he v hv
        rcases List.mem_cons.mp he with he0 | he1
        · rw [he0] at hv ⊢
          simp only [mkVideos, List.mem_map] at hv
          obtain ⟨it, _, hit⟩ := hv
          rw [← hit]
        · exact h5 e he1 v hv

theorem resolveBatches_cc_inv (env : Env)
    (hsnip : ∀ ids items, env.snippet ids = some items →
      ∀ p ∈ items, looksLikeID env p.2 = false) :
    ∀ (bs : List (List String)) (c : Client) (res : List (String × String)),
    (∀ p ∈ c.channelCache, looksLikeID env p.2 = false) →
    ∀ p ∈ (resolveBatches env c res bs).2.1.channelCache, looksLikeID env p.2 = false := by
  intro bs
  induction bs with
  | nil => intro c res hcc; exact hcc
  | cons b rest ih =>
    intro c res hcc
    cases hs : env.snippet b with
    | none =>
      simp only [resolveBatches, hs]
      exact hcc
    | some items =>
      simp only [resolveBatches, hs]
      exact ih _ _ (values_writeAll (fun n => looksLikeID env n = false)
        c.channelCache items hcc (hsnip b items hs))

theorem getChannelNames_cc_inv (c : Client) (env : Env) (ids : List String)
    (hsnip : ∀ ids items, env.snippet ids = some items →
      ∀ p ∈ items, looksLikeID env p.2 = false)
    (hcc : ∀ p ∈ c.channelCache, looksLikeID env p.2 = false) :
    ∀ p ∈ (GetChannelNamesForIDs c env ids).2.1.channelCache,
      looksLikeID env p.2 = false := by
  cases hmiss : (missingOf c ids).isEmpty with
  | true =>
    simp only [GetChannelNamesForIDs, hmiss, if_true]
    exact hcc
  | false =>
    simp only [GetChannelNamesForIDs, hmiss, Bool.false_eq_true, if_false]
    exact resolveBatches_cc_inv env hsnip _ c _ hcc

theorem patchCacheKey_append (A E : List (String × List Video)) (X n : String)
    (hX : X ∉ keys A) :
    patchCacheKey (A ++ E) X n = A ++ patchCacheKey E X n := by
  rw [patchCacheKey, patchCacheKey, alookup_append_right A E X hX]
  cases hl : alookup E X with
  | none => rfl
  | some vsX =>
    simp only
    exact aupdate_append_right A E X _ hX

theorem patchCache_append (names : List (String × String)) :
    ∀ (missing : List String) (A E : List (String × List Video)),
    (∀ X ∈ missing, X ∉ keys A) →
    patchCache names missing (A ++ E) = A ++ patchCache names missing E := by
  intro missing
  induction missing with
  | nil => intro A E _; rfl
  | cons X rest ih =>
    intro A E hX
    have hstep : ∀ (F : List (String × List Video)), patchCache names (X :: rest) F =
        patchCache names rest
          (match alookup names X with
           | some n => patchCacheKey F X n
           | none => F) := fun F => rfl
    rw [hstep, hstep]
    cases hres : alookup names X with
    | none =>
      simp only
      exact ih A E (fun Y hY => hX Y (List.mem_cons_of_mem X hY))
    | some n =>
      simp only
      rw [patchCacheKey_append A E X n (hX X (List.mem_cons_self X rest))]
      exact ih A _ (fun Y hY => hX Y (List.mem_cons_of_mem X hY))

theorem collectMissing_sub_keys (env : Env) (E : List (String × List Video))
    (cc : List (String × String))
    (hccP : ∀ p ∈ cc, looksLikeID env p.2 = false)
    (hQ1 : ∀ e ∈ E, ∀ v ∈ e.2, v.channelName = (alookup cc e.1).getD e.1) :
    ∀ X ∈ collectMissing env (concatValues E), X ∈ keys E := by
  intro X hX
  rw [mem_collectMissing] at hX
  obtain ⟨v, hvmem, hvn, hlid⟩ := hX
  obtain ⟨e', he', hv'⟩ := mem_concatValues.mp hvmem
  have hq := hQ1 e' he' v hv'
  cases hcc' : alookup cc e'.1 with
  | some n1 =>
    have hn1 : looksLikeID env n1 = false :=
      hccP (e'.1, n1) (mem_of_alookup_eq_some cc e'.1 n1 hcc')
    rw [hcc'] at hq
    simp only [Option.getD_some] at hq
    rw [hvn] at hq
    rw [hq, hn1] at hlid
    exact Bool.noConfusion hlid
  | none =>
    rw [hcc'] at hq
    simp only [Option.getD_none] at hq
    rw [hvn] at hq
    rw [hq]
    exact List.mem_map_of_mem Prod.fst he'

theorem fetch_cache_spec (c : Client) (env : Env) (b : List String)
    (hccP : ∀ p ∈ c.channelCache, looksLikeID env p.2 = false)
    (hsnip : ∀ ids items, env.snippet ids = some items →
      ∀ p ∈ items, looksLikeID env p.2 = false)
    (hmeta : ∀ metas, env.contentDetails b = some metas →
      (metas.map ChanMeta.id).Nodup ∧ ∀ m ∈ metas, m.id ∈ b)
    (hbfresh : ∀ id ∈ b, id ∉ keys c.videoCache) :
    ∀ vs c2 ev, fetchVideosForChannels c env b = (some vs, c2, ev) →
      concatValues c2.videoCache = concatValues c.videoCache ++ vs ∧
      (∀ p ∈ c2.channelCache, looksLikeID env p.2 = false) ∧
      (∀ k ∈ keys c2.videoCache, k ∈ keys c.videoCache ∨ k ∈ b) := by
  intro vs c2 ev h
  cases hm : env.contentDetails b with
  | none =>
    simp only [fetchVideosForChannels, hm] at h
    simp at h
  | some metas =>
    obtain ⟨hndm, hsubm⟩ := hmeta metas hm
    obtain ⟨E, h1, h2, h3, h4, h5⟩ := processChannels_spec env metas c hndm
      (fun m hm' => hbfresh m.id (hsubm m hm'))
    have hccp1 : (processChannels env c metas).2.1.channelCache = c.channelCache :=
      (processChannels_frame env metas c).1
    have hEb : ∀ k ∈ keys E, k ∈ b := by
      intro k hk
      obtain ⟨m, hmm, hmk⟩ := List.mem_map.mp (h4 k hk)
      exact hmk ▸ hsubm m hmm
    have hkeysE : keys ((processChannels env c metas).2.1.videoCache) =
        keys c.videoCache ++ keys E := by
      rw [h1, keys, List.map_append]
      rfl
    have hconcat1 : concatValues (processChannels env c metas).2.1.videoCache =
        concatValues c.videoCache ++ (processChannels env c metas).1 := by
      rw [h1, concatValues_append, h2]
    have hcc1 : ∀ p ∈ (processChannels env c metas).2.1.channelCache,
        looksLikeID env p.2 = false := by
      rw [hccp1]
      exact hccP
    simp only [fetchVideosForChannels, hm] at h
    cases hmiss : (collectMissing env (processChannels env c metas).1).isEmpty with
    | true =>
      rw [hmiss] at h
      simp only [if_true] at h
      simp only [Prod.mk.injEq, Option.some.injEq] at h
      obtain ⟨hv, hc, -⟩ := h
      rw [← hc, ← hv]
      refine ⟨hconcat1, hcc1, ?_⟩
      intro k hk
      rw [hkeysE] at hk
      rcases List.mem_append.mp hk with hk | hk
      · exact Or.inl hk
      · exact Or.inr (hEb k hk)
    | false =>
      rw [hmiss] at h
      simp only [Bool.false_eq_true, if_false] at h
      have hvc := (getChannelNames_frame (processChannels env c metas).2.1 env
        (collectMissing env (processChannels env c metas).1)).1
      have hcc2 := getChannelNames_cc_inv (processChannels env c metas).2.1 env
        (collectMissing env (processChannels env c metas).1) hsnip hcc1
      cases hres : GetChannelNamesForIDs (processChannels env c metas).2.1 env
        (collectMissing env (processChannels env c metas).1) with
      | mk rfst rsnd =>
        rw [hres] at h hvc hcc2
        cases rfst with
        | none =>
          simp only [Prod.mk.injEq, Option.some.injEq] at h
          obtain ⟨hv, hc, -⟩ := h
          rw [← hc, ← hv]
          refine ⟨by rw [hvc]; exact hconcat1, hcc2, ?_⟩
          intro k hk
          rw [hvc, hkeysE] at hk
          rcases List.mem_append.mp hk with hk | hk
          · exact Or.inl hk
          · exact Or.inr (hEb k hk)
        | some names =>
          simp only [Prod.mk.injEq, Option.some.injEq] at h
          obtain ⟨hv, hc, -⟩ := h
          have hmeq : collectMissing env (processChannels env c metas).1 =
              collectMissing env (concatValues E) := by rw [h2]
          have hXA : ∀ X ∈ collectMissing env (processChannels env c metas).1,
              X ∉ keys c.videoCache := by
            intro X hX
            rw [hmeq] at hX
            exact fun hk => hbfresh X (hEb X (collectMissing_sub_keys env E
              c.channelCache hccP h5 X hX)) hk
          have hpatch : patchCache names (collectMissing env (processChannels env c metas).1)
              rsnd.1.videoCache =
              c.videoCache ++ E.map (fun e => (e.1, e.2.map (patchName env names))) := by
            rw [hvc, h1, patchCache_append names _ _ _ hXA, hmeq,
              patchCache_eq_map names _ E h3 (nodup_collectMissing env _)]
            congr 1
            apply List.map_congr_left
            intro e he
            exact entryPatch_eq_patchName env names E c.channelCache hccP h3 h5 e he
          rw [← hc, ← hv]
          refine ⟨?_, hcc2, ?_⟩
          · show concatValues (patchCache names _ rsnd.1.videoCache) = _
            rw [hpatch, concatValues_append, concatValues_map_entry, h2]
          · intro k hk
            have hkeq : keys (patchCache names
                (collectMissing env (processChannels env c metas).1)
                rsnd.1.videoCache) = keys c.videoCache ++ keys E := by
              rw [hpatch, keys_append,
                keys_map_entry E (fun e => (e.1, e.2.map (patchName env names)))
                  (fun e _ => rfl)]
            have hk' : k ∈ keys (patchCache names
                (collectMissing env (processChannels env c metas).1)
                rsnd.1.videoCache) := hk
            rw [hkeq] at hk'
            rcases List.mem_append.mp hk' with hk2 | hk2
            · exact Or.inl hk2
            · exact Or.inr (hEb k hk2)

theorem runBatches_cache_spec (env : Env)
    (hsnip : ∀ ids items, env.snippet ids = some items →
      ∀ p ∈ items, looksLikeID env p.2 = false)
    (hmeta : ∀ ids metas, env.contentDetails ids = some metas →
      (metas.map ChanMeta.id).Nodup ∧ ∀ m ∈ metas, m.id ∈ ids) :
    ∀ (bs : List (List String)) (c : Client),
    (∀ p ∈ c.channelCache, looksLikeID env p.2 = false) →
    (∀ b ∈ bs, ∀ id ∈ b, id ∉ keys c.videoCache) →
    (bs.flatten).Nodup →
    ∀ vs c2 ev, runBatches env c bs = (some vs, c2, ev) →
      concatValues c2.videoCache = concatValues c.videoCache ++ vs ∧
      (∀ p ∈ c2.channelCache, looksLikeID env p.2 = false) ∧
      (∀ k ∈ keys c2.videoCache, k ∈ keys c.videoCache ∨ k ∈ bs.flatten) := by
  intro bs
  induction bs with
  | nil =>
    intro c hcc _ _ vs c2 ev h
    simp only [runBatches, Prod.mk.injEq, Option.some.injEq] at h
    rw [← h.2.1, ← h.1]
    exact ⟨by simp, hcc, fun k hk => Or.inl hk⟩
  | cons b rest ih =>
    intro c hcc hfresh hnd vs c2 ev h
    simp only [List.flatten_cons] at hnd
    have hnd' := List.nodup_append.mp hnd
    simp only [runBatches] at h
    cases hf : fetchVideosForChannels c env b with
    | mk ffst fsnd =>
      rw [hf] at h
      cases ffst with
      | none => simp at h
      | some vs1 =>
        simp only [] at h
        have hspec1 := fetch_cache_spec c env b hcc hsnip (fun metas hm => hmeta b metas hm)
          (hfresh b (List.mem_cons_self b rest)) vs1 fsnd.1 fsnd.2 (by rw [hf])
        have hfresh1 : ∀ b' ∈ rest, ∀ id ∈ b', id ∉ keys fsnd.1.videoCache := by
          intro b' hb' id hid hkm
          rcases hspec1.2.2 id hkm with hkm | hkm
          · exact hfresh b' (List.mem_cons_of_mem b hb') id hid hkm
          · exact hnd'.2.2 hkm (List.mem_flatten.mpr ⟨b', hb', hid⟩)
        cases hr : runBatches env fsnd.1 rest with
        | mk rfst rsnd =>
          rw [hr] at h
          cases rfst with
          | none => simp at h
          | some vs2 =>
            simp only [Prod.mk.injEq, Option.some.injEq] at h
            obtain ⟨hv, hc, -⟩ := h
            obtain ⟨hsp1, hsp2, hsp3⟩ := hspec1
            obtain ⟨hrp1, hrp2, hrp3⟩ := ih fsnd.1 hsp2 hfresh1 hnd'.2.1
              vs2 rsnd.1 rsnd.2 (by rw [hr])
            rw [← hc, ← hv]
            refine ⟨?_, hrp2, ?_⟩
            · rw [hrp1, hsp1, List.append_assoc]
            · intro k hk
              rcases hrp3 k hk with hk2 | hk2
              · rcases hsp3 k hk2 with hk3 | hk3
                · exact Or.inl hk3
                · exact Or.inr (List.mem_flatten.mpr ⟨b, List.mem_cons_self b rest, hk3⟩)
              · refine Or.inr ?_
                rw [List.flatten_cons]
                exact List.mem_append_right b hk2

/-- C1 counterexample: a reachable trace on which the claim fails.  From a
fresh client, rebuild over channels UCA and UCX, remove UCX (which leaves
its video-cache entry behind), let the TTL expire, rebuild again over UCA
alone, and query within the TTL: the fresh call performs no remote events,
yet returns a sequence different from the one the prior successful rebuild
returned (it still contains UCX's stale video). -/
theorem claim1_counterexample :
    tr3Client.lastFetchTime = some tr2Env.now ∧
    cacheFresh tr3Client tr3Env = true ∧
    (GetLatestVideos tr2Client tr2Env).1.isSome = true ∧
    (GetLatestVideos tr3Client tr3Env).2.2 = [] ∧
    (GetLatestVideos tr3Client tr3Env).1 ≠ (GetLatestVideos tr2Client tr2Env).1 := by
  refine ⟨by decide, by decide, by decide, by decide, by decide⟩

/-- C1 as amended: a call made while the cache is fresh performs no remote
event, leaves the client unchanged, and returns exactly the prior
rebuild's sequence - provided the per-channel video cache was empty when
that rebuild started (so no stale entries of since-removed channels
survive), the subscription list has no duplicates, every metadata response
names each requested channel once and only requested channels, and no
cached or remotely returned display name itself has the shape of a raw
channel ID. -/
theorem claim1_amended (c : Client) (env env' : Env)
    (hvc : c.videoCache = [])
    (hmiss : cacheFresh c env = false)
    (hsubs : c.subscribedChannels.Nodup)
    (hmeta : ∀ ids metas, env.contentDetails ids = some metas →
      (metas.map ChanMeta.id).Nodup ∧ ∀ m ∈ metas, m.id ∈ ids)
    (hcc : ∀ p ∈ c.channelCache, looksLikeID env p.2 = false)
    (hsnip : ∀ ids items, env.snippet ids = some items →
      ∀ p ∈ items, looksLikeID env p.2 = false)
    (vs : List Video) (c2 : Client) (ev : List Event)
    (hreb : GetLatestVideos c env = (some vs, c2, ev))
    (hfresh' : env'.now - env.now < c.cacheDuration) :
    GetLatestVideos c2 env' = (some vs, c2, []) := by
  simp only [GetLatestVideos, hmiss, Bool.false_eq_true, if_false] at hreb
  have hfr := runBatches_frame env (chunks50 c.subscribedChannels) c
  cases hrb : runBatches env c (chunks50 c.subscribedChannels) with
  | mk rfst rsnd =>
    rw [hrb] at hreb hfr
    cases rfst with
    | none => simp at hreb
    | some vs0 =>
      simp only [Prod.mk.injEq, Option.some.injEq] at hreb
      obtain ⟨hv, hc, -⟩ := hreb
      have hflat : (chunks50 c.subscribedChannels).flatten = c.subscribedChannels :=
        chunks50_flatten c.subscribedChannels.length c.subscribedChannels le_rfl
      obtain ⟨hsp1, -, -⟩ := runBatches_cache_spec env hsnip hmeta
        (chunks50 c.subscribedChannels) c hcc
        (by
          intro b _ id _ hkm
          rw [hvc] at hkm
          cases hkm)
        (by rw [hflat]; exact hsubs)
        vs0 rsnd.1 rsnd.2 (by rw [hrb])
      have hcv : concatValues rsnd.1.videoCache = vs0 := by
        rw [hsp1, hvc]
        rfl
      have hfresh2 : cacheFresh c2 env' = true := by
        rw [← hc]
        show (env'.now - env.now < rsnd.1.cacheDuration : Bool) = true
        rw [hfr.2.2.2]
        simp only [decide_eq_true_eq]
        exact hfresh'
      simp only [GetLatestVideos, hfresh2, if_true]
      rw [← hc]
      show (some (sortVideos (concatValues rsnd.1.videoCache)), _, ([] : List Event)) = _
      rw [hcv, hv]

/-- Witness for the amended C1: the concrete two-channel rebuild followed
by a query five time units later returns the identical sequence with no
remote events. -/
theorem claim1_amended_witness :
    GetLatestVideos tr1Client { wEnv with now := 105 } =
      (some ((GetLatestVideos wClient wEnv).1.getD []), tr1Client, []) := by
  have hmeta : ∀ ids metas, wEnv.contentDetails ids = some metas →
      (metas.map ChanMeta.id).Nodup ∧ ∀ m ∈ metas, m.id ∈ ids := by
    intro ids metas h
    by_cases h1 : ids = ["UCA", "UCX"]
    · subst h1
      have h' : some [ChanMeta.mk "UCA" "PA", ChanMeta.mk "UCX" "PX"] = some metas := h
      obtain rfl := Option.some.inj h'
      exact ⟨by decide, by decide⟩
    · by_cases h2 : ids = ["UCA"]
      · subst h2
        have h' : some [ChanMeta.mk "UCA" "PA"] = some metas := by
          rw [show wEnv.contentDetails ["UCA"] = some [ChanMeta.mk "UCA" "PA"] from rfl] at h
          exact h
        obtain rfl := Option.some.inj h'
        exact ⟨by decide, by decide⟩
      · rw [show wEnv.contentDetails ids =
            (if ids = ["UCA", "UCX"] then
              some [ChanMeta.mk "UCA" "PA", ChanMeta.mk "UCX" "PX"]
            else if ids = ["UCA"] then some [ChanMeta.mk "UCA" "PA"] else none) from rfl,
          if_neg h1, if_neg h2] at h
        exact Option.noConfusion h
  have hsnip : ∀ ids items, wEnv.snippet ids = some items →
      ∀ p ∈ items, looksLikeID wEnv p.2 = false := by
    intro ids items h
    by_cases h1 : ids = ["UCA"]
    · subst h1
      have h' : some [("UCA", "Alice")] = some items := h
      obtain rfl := Option.some.inj h'
      intro p hp
      simp only [List.mem_singleton] at hp
      rw [hp]
      decide
    · rw [show wEnv.snippet ids =
          (if ids = ["UCA"] then some [("UCA", "Alice")] else none) from rfl,
        if_neg h1] at h
      exact Option.noConfusion h
  exact claim1_amended wClient wEnv { wEnv with now := 105 }
    (by decide) (by decide) (by decide) hmeta (by decide) hsnip
    ((GetLatestVideos wClient wEnv).1.getD []) (GetLatestVideos wClient wEnv).2.1
    (GetLatestVideos wClient wEnv).2.2 (by decide) (by decide)

end YTV
